import Mathlib

/-!
Verification development for the OpenMapCalendar repository.

The repository is a TypeScript application: a React client (`src/App.tsx`) and an
Express server (embedded in the same source file) sharing one calendar document
format.  This file gives a shallow embedding of the core data model and of the
operations the specification talks about:

* the server's three-way merge engine (`mergeState` with `flattenEvents` and
  `groupByDay`),
* the revisioned save handler (`POST /api/calendars/:id`),
* the client's AI plan normalizer and scheduler (`applyPlannedEvents` with
  `parseIsoDateOnly`, `parseTimeToMinutes` and `hasTimeOverlap`),
* the per-calendar rollback slot (`handleAiRollback`) and the staleness guard of
  `handleAiMessage`.

Modelling conventions:

* JavaScript `Map`s and plain objects used as keyed records are embedded as
  association lists (`List (κ × α)`); `Map.set` replaces the first entry with the
  key or appends, `Map.get` returns the first entry, matching JS semantics.
* `deepEqual` in the server is `JSON.stringify` equality; on the well-typed
  documents the claims quantify over this is structural equality, so it is
  embedded as decidable equality.  The day-keyed `events` object serializes its
  non-negative integer-like keys in ascending order, so a document in canonical
  form is an association list whose keys ascend.
* Calendar dates are embedded by their civil (proleptic Gregorian) day numbers;
  millisecond arithmetic such as `diffInDays` becomes subtraction of day numbers.
* Geocoding is an external collaborator and is embedded as an abstract function
  `String → Option Place`; event-id generation (`crypto.randomUUID`) as an
  abstract function `Nat → String` applied to the count of events created so far.
-/

namespace OpenMapCalendar

/-- Resolved place as produced by the geocoding collaborator (`LocationData`);
coordinates are carried opaquely and are embedded as integers. -/
structure Place where
  name : String
  lat : Int
  lng : Int
deriving DecidableEq, Repr

/-- Calendar event (`TimeBlock`).  The field list follows the data model of the
spec and the uses in `src/App.tsx`; the cached route geometry is opaque to the
core and omitted. -/
structure Event where
  id : String
  dayIndex : Int
  startMinutes : Int
  endMinutes : Int
  color : String
  title : String
  description : String
  location : Option Place
  destination : Option Place
  routeMode : String
deriving DecidableEq, Repr

section AssocMap

variable {κ α : Type} [DecidableEq κ]

/-- Lookup in an association list: the first entry with the key wins, matching
JS `Map.get` and property access on objects with unique keys. -/
def alGet : List (κ × α) → κ → Option α
  | [], _ => none
  | p :: rest, k => if p.1 = k then some p.2 else alGet rest k

/-- Update in an association list: replace the first entry with the key, or
append, matching JS `Map.set` / keyed assignment. -/
def alSet : List (κ × α) → κ → α → List (κ × α)
  | [], k, v => [(k, v)]
  | p :: rest, k, v => if p.1 = k then (k, v) :: rest else p :: alSet rest k v

/-- Key membership test, matching JS `Map.has`. -/
def alHas (m : List (κ × α)) (k : κ) : Bool :=
  (alGet m k).isSome

/-- Removal of a key, matching JS `Map.delete` (keys are unique in a `Map`). -/
def alDelete (m : List (κ × α)) (k : κ) : List (κ × α) :=
  m.filter (fun p => decide (p.1 ≠ k))

/-- Keys of an association list, with multiplicity. -/
def alKeys (m : List (κ × α)) : List κ := m.map Prod.fst

/-- Uniqueness of keys, the invariant every JS `Map` maintains. -/
def NodupKeys (m : List (κ × α)) : Prop := (alKeys m).Nodup

end AssocMap

/-- Flattening of the day-keyed `events` record into an id-keyed map, as in the
server's `flattenEvents`: events without an id are skipped. -/
def flattenEvents (eventsByDay : List (Int × List Event)) : List (String × Event) :=
  eventsByDay.foldl
    (fun m bucket =>
      bucket.2.foldl (fun m ev => if ev.id = "" then m else alSet m ev.id ev) m)
    []

/-- One insertion into the day-keyed grouping object of the server's
`groupByDay`.  A JS object serializes integer-like keys in ascending order and
pushes each event to the end of its bucket, so the grouping is kept as an
ascending-key association list with in-order buckets. -/
def insertGrouped : List (Int × List Event) → Event → List (Int × List Event)
  | [], e => [(e.dayIndex, [e])]
  | (k, evs) :: rest, e =>
    if e.dayIndex = k then (k, evs ++ [e]) :: rest
    else if e.dayIndex < k then (e.dayIndex, [e]) :: (k, evs) :: rest
    else (k, evs) :: insertGrouped rest e

/-- Stable insertion for sorting a bucket by `startMinutes` (JS `Array.sort`
with comparator `a.startMinutes - b.startMinutes` is stable). -/
def insertByStart (e : Event) : List Event → List Event
  | [] => [e]
  | x :: xs => if e.startMinutes ≤ x.startMinutes then e :: x :: xs else x :: insertByStart e xs

/-- Stable sort of a bucket by start time, as in the server's `groupByDay` and
the client's insertion loop. -/
def sortByStart (l : List Event) : List Event := l.foldr insertByStart []

/-- Regrouping of an id-keyed event map by each event's own `dayIndex`, with
each bucket sorted by start time: the server's `groupByDay`. -/
def groupByDay (m : List (String × Event)) : List (Int × List Event) :=
  (m.foldl (fun g p => insertGrouped g p.2) []).map (fun b => (b.1, sortByStart b.2))

/-- First event loop of the server's `mergeState`: every id of `incomingMap`
whose event differs from the `baseMap` entry is written over the working map. -/
def mergeSets (baseMap : List (String × Event)) (cur : List (String × Event))
    (inc : List (String × Event)) : List (String × Event) :=
  inc.foldl (fun m p => if alGet baseMap p.1 = some p.2 then m else alSet m p.1 p.2) cur

/-- Second event loop of the server's `mergeState`: every id present in
`baseMap` but absent from `incomingMap` is deleted from the working map. -/
def mergeDeletes (baseMap : List (String × Event)) (inc : List (String × Event))
    (m : List (String × Event)) : List (String × Event) :=
  baseMap.foldl (fun m p => if alHas inc p.1 then m else alDelete m p.1) m

/-- Event part of the server's `mergeState` working-map computation. -/
def mergeEventMaps (baseMap incMap curMap : List (String × Event)) : List (String × Event) :=
  mergeDeletes baseMap incMap (mergeSets baseMap curMap incMap)

/-- Shared calendar document (`CalendarState`): scalar scheduling settings plus
the day-keyed events record. -/
structure CalendarState where
  numDays : Int
  startDate : String
  startHour : Int
  endHour : Int
  viewMode : String
  events : List (Int × List Event)
deriving DecidableEq, Repr

/-- The server's `mergeState`: scalar fields are taken from `incoming` exactly
when they differ from `base`, and the events are reconciled per id and
regrouped by day. -/
def mergeState (current base incoming : CalendarState) : CalendarState :=
  { numDays := if incoming.numDays = base.numDays then current.numDays else incoming.numDays
    startDate := if incoming.startDate = base.startDate then current.startDate else incoming.startDate
    startHour := if incoming.startHour = base.startHour then current.startHour else incoming.startHour
    endHour := if incoming.endHour = base.endHour then current.endHour else incoming.endHour
    viewMode := if incoming.viewMode = base.viewMode then current.viewMode else incoming.viewMode
    events := groupByDay (mergeEventMaps (flattenEvents base.events)
      (flattenEvents incoming.events) (flattenEvents current.events)) }

/-- One entry of the server's revisioned store (`calendars` map); the display
name and timestamp play no role in the claims and are omitted. -/
structure StoredCalendar where
  state : CalendarState
  revision : Int
deriving DecidableEq, Repr

/-- The server's `normalizeState` on a well-typed document: every field is
already of the right shape, so only the positivity guard on `numDays` acts. -/
def normalizeState (s : CalendarState) : CalendarState :=
  { s with numDays := if 0 < s.numDays then s.numDays else 5 }

/-- Document selected by the `POST /api/calendars/:id` handler: the merge engine
runs exactly when a base revision is supplied, differs from the stored revision,
and a base document is supplied; otherwise the incoming document is accepted
verbatim. -/
def nextStateOf (cal : StoredCalendar) (incoming : CalendarState)
    (base : Option CalendarState) (baseRevision : Option Int) : CalendarState :=
  let inc := normalizeState incoming
  match baseRevision, base with
  | some r, some b => if r = cal.revision then inc else mergeState cal.state (normalizeState b) inc
  | _, _ => inc

/-- The save handler's mutation of the stored entry: a result `deepEqual` to the
stored document leaves the entry untouched, otherwise the document is replaced
and the revision incremented by one. -/
def putCalendar (cal : StoredCalendar) (incoming : CalendarState)
    (base : Option CalendarState) (baseRevision : Option Int) : StoredCalendar :=
  let next := nextStateOf cal incoming base baseRevision
  if next = cal.state then cal else { state := next, revision := cal.revision + 1 }

/-- The server's `DEFAULT_STATE` with the creation-time start date. -/
def defaultState (startDateNow : String) : CalendarState :=
  { numDays := 5, startDate := startDateNow, startHour := 7, endHour := 22
    viewMode := "row", events := [] }

/-- Calendar creation (`POST /api/calendars`): a fresh default document at
revision `0`. -/
def createCalendar (startDateNow : String) : StoredCalendar :=
  { state := defaultState startDateNow, revision := 0 }

/-- An event occurs in a document when some day bucket of its events record
contains it. -/
def docContains (s : CalendarState) (e : Event) : Prop :=
  ∃ p ∈ s.events, e ∈ p.2

/-- Invariant that every entry of an id-keyed map is keyed by its event's id. -/
def KeyedById (m : List (String × Event)) : Prop :=
  ∀ p ∈ m, p.2.id = p.1

/-- All events stored in a day-keyed record, in serialization order. -/
def bucketsEvents (g : List (Int × List Event)) : List Event :=
  (g.map Prod.snd).flatten

/-- Event literal used as witness input. -/
def mkEvent (eid : String) (day s e : Int) : Event :=
  { id := eid, dayIndex := day, startMinutes := s, endMinutes := e, color := "#5B7FBF"
    title := "T", description := "", location := none, destination := none
    routeMode := "simple" }

/-- Document literal used as witness input. -/
def mkDoc (evs : List (Int × List Event)) : CalendarState :=
  { numDays := 5, startDate := "2027-01-01", startHour := 7, endHour := 22
    viewMode := "row", events := evs }

/-- Boolean chain test used to give `List.Chain'` a kernel-reducible
decidability instance. -/
def chainB {α : Type} (r : α → α → Bool) : List α → Bool
  | [] => true
  | [_] => true
  | a :: b :: rest => r a b && chainB r (b :: rest)

instance chainDecidable {α : Type} {R : α → α → Prop} [DecidableRel R] (l : List α) :
    Decidable (List.Chain' R l) :=
  decidable_of_iff (chainB (fun a b => decide (R a b)) l = true) (by
    induction l with
    | nil => simp [chainB]
    | cons x xs ih =>
      rcases xs with _ | ⟨y, ys⟩
      · simp [chainB]
      · rw [List.chain'_cons, ← ih]
        simp [chainB, Bool.and_eq_true])

/-- Well-formedness of a day-keyed events record, following the data-model
invariants of the spec: ascending non-negative day keys (the canonical JSON
serialization order), non-empty buckets, each event keyed by its own `dayIndex`
with a non-empty id, buckets sorted by start time, and globally unique ids. -/
def eventsWF (ev : List (Int × List Event)) : Prop :=
  List.Chain' (· < ·) (ev.map Prod.fst) ∧
  (∀ p ∈ ev, 0 ≤ p.1) ∧
  (∀ p ∈ ev, p.2 ≠ []) ∧
  (∀ p ∈ ev, ∀ e ∈ p.2, e.dayIndex = p.1 ∧ e.id ≠ "") ∧
  (∀ p ∈ ev, List.Chain' (fun x y => x.startMinutes ≤ y.startMinutes) p.2) ∧
  ((bucketsEvents ev).map Event.id).Nodup

instance (ev : List (Int × List Event)) : Decidable (eventsWF ev) :=
  inferInstanceAs (Decidable (List.Chain' (· < ·) (ev.map Prod.fst) ∧
    (∀ p ∈ ev, 0 ≤ p.1) ∧
    (∀ p ∈ ev, p.2 ≠ []) ∧
    (∀ p ∈ ev, ∀ e ∈ p.2, e.dayIndex = p.1 ∧ e.id ≠ "") ∧
    (∀ p ∈ ev, List.Chain' (fun x y : Event => x.startMinutes ≤ y.startMinutes) p.2) ∧
    ((bucketsEvents ev).map Event.id).Nodup))

/-! Plan normalizer and scheduler (client `applyPlannedEvents` and helpers). -/
/-- Whitespace trim on the character list of a string; embeds the
`String.prototype.trim` calls of the source (the library `String.trim` is
defined by well-founded recursion on byte positions and does not reduce in the
kernel). -/
def trimChars (l : List Char) : List Char :=
  ((l.dropWhile Char.isWhitespace).reverse.dropWhile Char.isWhitespace).reverse

/-- String-valued trim built on `trimChars`. -/
def trimS (s : String) : String := String.mk (trimChars s.toList)

/-- Digit character class of the source regexes (`\d`), by code point. -/
def isDigitCh (c : Char) : Prop := 48 ≤ c.toNat ∧ c.toNat ≤ 57

instance (c : Char) : Decidable (isDigitCh c) :=
  inferInstanceAs (Decidable (48 ≤ c.toNat ∧ c.toNat ≤ 57))

/-- Numeric value of a digit character. -/
def digitVal (c : Char) : Int := (c.toNat : Int) - 48

/-- Capture groups of the date regex of `parseIsoDateOnly`,
four digits, dash, two digits, dash, two digits, anchored. -/
def isoDateFields : List Char → Option (Int × Int × Int)
  | [y1, y2, y3, y4, s1, m1, m2, s2, d1, d2] =>
    if isDigitCh y1 ∧ isDigitCh y2 ∧ isDigitCh y3 ∧ isDigitCh y4 ∧ s1 = '-' ∧
        isDigitCh m1 ∧ isDigitCh m2 ∧ s2 = '-' ∧ isDigitCh d1 ∧ isDigitCh d2 then
      some (1000 * digitVal y1 + 100 * digitVal y2 + 10 * digitVal y3 + digitVal y4,
        10 * digitVal m1 + digitVal m2, 10 * digitVal d1 + digitVal d2)
    else none
  | _ => none

/-- Leap-year rule of the proleptic Gregorian calendar used by JS `Date`. -/
def isLeapYear (y : Int) : Prop := y % 4 = 0 ∧ (y % 100 ≠ 0 ∨ y % 400 = 0)

instance (y : Int) : Decidable (isLeapYear y) :=
  inferInstanceAs (Decidable (y % 4 = 0 ∧ (y % 100 ≠ 0 ∨ y % 400 = 0)))

/-- Number of days in a month of the proleptic Gregorian calendar. -/
def daysInMonth (y m : Int) : Int :=
  if m = 2 then (if isLeapYear y then 29 else 28)
  else if m = 4 ∨ m = 6 ∨ m = 9 ∨ m = 11 then 30 else 31

/-- Civil day number of a proleptic Gregorian date (days since 1970-01-01),
the standard era-based computation; this embeds the millisecond day arithmetic
of `toLocalDay`, `diffInDays` and `addDays` as integer day numbers. -/
def daysFromCivil (y m d : Int) : Int :=
  let y' := if m ≤ 2 then y - 1 else y
  let era := Int.fdiv y' 400
  let yoe := y' - era * 400
  let mp := Int.fmod (m + 9) 12
  let doy := Int.fdiv (153 * mp + 2) 5 + d - 1
  let doe := yoe * 365 + Int.fdiv yoe 4 - Int.fdiv yoe 100 + doy
  era * 146097 + doe - 719468

/-- ECMAScript `Date` constructor year rewrite: constructor years 0–99 denote
1900–1999. -/
def jsConstructorYear (y : Int) : Int := if 0 ≤ y ∧ y ≤ 99 then 1900 + y else y

/-- Real-calendar-date check on parsed fields: month in range and day within
the month. -/
def validCivilYmd (y m d : Int) : Prop := 1 ≤ m ∧ m ≤ 12 ∧ 1 ≤ d ∧ d ≤ daysInMonth y m

instance (y m d : Int) : Decidable (validCivilYmd y m d) :=
  inferInstanceAs (Decidable (1 ≤ m ∧ m ≤ 12 ∧ 1 ≤ d ∧ d ≤ daysInMonth y m))

/-- The client's `parseIsoDateOnly`, returning the civil day number.  The
source builds `new Date(year, month - 1, day)` and compares the getters with
the parsed fields; under ECMAScript `Date` semantics that round trip succeeds
exactly when the two-digit-year rewrite leaves the year unchanged and no
month/day normalization carry occurs, which is the condition embedded here. -/
def parseIsoDateOnly (s : String) : Option Int :=
  match isoDateFields (trimChars s.toList) with
  | none => none
  | some (y, m, d) =>
    if jsConstructorYear y = y ∧ validCivilYmd y m d then some (daysFromCivil y m d)
    else none

/-- Hour/minute pattern of the time regex of `parseTimeToMinutes`,
`([01]\d|2[0-3]):([0-5]\d)` by code points. -/
def timeRegexOk (h1 h2 m1 m2 : Char) : Prop :=
  ((h1.toNat = 48 ∨ h1.toNat = 49) ∧ isDigitCh h2 ∨
    (h1.toNat = 50 ∧ 48 ≤ h2.toNat ∧ h2.toNat ≤ 51)) ∧
  (48 ≤ m1.toNat ∧ m1.toNat ≤ 53) ∧ isDigitCh m2

instance (h1 h2 m1 m2 : Char) : Decidable (timeRegexOk h1 h2 m1 m2) :=
  inferInstanceAs (Decidable (((h1.toNat = 48 ∨ h1.toNat = 49) ∧ isDigitCh h2 ∨
    (h1.toNat = 50 ∧ 48 ≤ h2.toNat ∧ h2.toNat ≤ 51)) ∧
    (48 ≤ m1.toNat ∧ m1.toNat ≤ 53) ∧ isDigitCh m2))

/-- The client's `parseTimeToMinutes`: 24-hour `HH:MM` to minutes since
midnight. -/
def parseTimeToMinutes (s : String) : Option Int :=
  match trimChars s.toList with
  | [h1, h2, c, m1, m2] =>
    if c = ':' ∧ timeRegexOk h1 h2 m1 m2 then
      some (60 * (10 * digitVal h1 + digitVal h2) + (10 * digitVal m1 + digitVal m2))
    else none
  | _ => none

/-- Hex digit class of the color regex (`[0-9a-fA-F]`). -/
def isHexCh (c : Char) : Prop :=
  isDigitCh c ∨ (65 ≤ c.toNat ∧ c.toNat ≤ 70) ∨ (97 ≤ c.toNat ∧ c.toNat ≤ 102)

instance (c : Char) : Decidable (isHexCh c) :=
  inferInstanceAs (Decidable (isDigitCh c ∨ (65 ≤ c.toNat ∧ c.toNat ≤ 70) ∨
    (97 ≤ c.toNat ∧ c.toNat ≤ 102)))

/-- The client's `normalizeHexColor`: keep a trimmed strict `#RRGGBB` triplet,
drop anything else (a missing or empty value is falsy and dropped first). -/
def normalizeHexColor : Option String → Option String
  | none => none
  | some v =>
    if v = "" then none
    else
      match trimChars v.toList with
      | [p, a, b, c, d, e, f] =>
        if p = '#' ∧ isHexCh a ∧ isHexCh b ∧ isHexCh c ∧ isHexCh d ∧ isHexCh e ∧ isHexCh f then
          some (trimS v)
        else none
      | _ => none

/-- Raw model-proposed event (`AiPlanEvent`), as the client receives it. -/
structure AiPlanEvent where
  title : String
  description : Option String
  date : String
  startTime : String
  endTime : String
  origin : Option String
  destination : Option String
  color : Option String
deriving DecidableEq, Repr

/-- Typed candidate produced by the normalizer (`ParsedPlanEvent`); the date is
carried as its civil day number. -/
structure ParsedPlanEvent where
  title : String
  description : String
  date : Int
  dayDiff : Int
  startMinutes : Int
  endMinutes : Int
  origin : Option String
  destination : Option String
  color : Option String
deriving DecidableEq, Repr

/-- Per-item body of the normalizer loop in `applyPlannedEvents`: an item is
dropped unless its date and both times parse; times are then clamped, a
too-short or inverted range is widened, text fields are trimmed and defaulted,
and the color validated. -/
def parsePlannedEvent (currentStartDay : Int) (item : AiPlanEvent) : Option ParsedPlanEvent :=
  match parseIsoDateOnly item.date, parseTimeToMinutes item.startTime,
      parseTimeToMinutes item.endTime with
  | some date, some startRaw, some endRaw =>
    let startMinutes := max 0 (min (23 * 60 + 30) startRaw)
    let endMinutes := max (startMinutes + 30)
      (min (24 * 60) (if startMinutes < endRaw then endRaw else startMinutes + 60))
    some { title := if trimS item.title = "" then "Untitled" else trimS item.title
           description := (item.description.map trimS).getD ""
           date := date
           dayDiff := date - currentStartDay
           startMinutes := startMinutes
           endMinutes := endMinutes
           origin := item.origin.map trimS
           destination := item.destination.map trimS
           color := normalizeHexColor item.color }
  | _, _, _ => none

/-- The normalizer loop over a batch: parsed candidates in order plus the count
of invalid items. -/
def parseBatch (currentStartDay : Int) (items : List AiPlanEvent) :
    List ParsedPlanEvent × Nat :=
  items.foldl
    (fun acc item =>
      match parsePlannedEvent currentStartDay item with
      | none => (acc.1, acc.2 + 1)
      | some p => (acc.1 ++ [p], acc.2))
    ([], 0)

/-- Comparator order of the scheduler's candidate sort: ascending
`(dayDiff, startMinutes)`. -/
def plannedLE (a b : ParsedPlanEvent) : Prop :=
  a.dayDiff < b.dayDiff ∨ (a.dayDiff = b.dayDiff ∧ a.startMinutes ≤ b.startMinutes)

instance (a b : ParsedPlanEvent) : Decidable (plannedLE a b) :=
  inferInstanceAs (Decidable (a.dayDiff < b.dayDiff ∨
    (a.dayDiff = b.dayDiff ∧ a.startMinutes ≤ b.startMinutes)))

/-- Stable insertion for the candidate sort. -/
def insertPlanned (e : ParsedPlanEvent) : List ParsedPlanEvent → List ParsedPlanEvent
  | [] => [e]
  | x :: xs => if plannedLE e x then e :: x :: xs else x :: insertPlanned e xs

/-- Stable sort of candidates by `(dayDiff, startMinutes)`. -/
def sortPlanned (l : List ParsedPlanEvent) : List ParsedPlanEvent :=
  l.foldr insertPlanned []

/-- Minimum of a list of integers, `0` on the empty list (the scheduler only
uses it on non-empty batches). -/
def listMinD (l : List Int) : Int := l.foldl min (l.headD 0)

/-- The scheduler's window shift: `max(0, −minimum day offset)`. -/
def planOffset (parsed : List ParsedPlanEvent) : Int :=
  let minDayDiff := listMinD (parsed.map ParsedPlanEvent.dayDiff)
  if minDayDiff < 0 then -minDayDiff else 0

/-- Window-shift of the pre-existing events: every bucket moves to
`oldDayIndex + offset` and each event's `dayIndex` field is rewritten to the
new bucket key. -/
def shiftEvents (events : List (Int × List Event)) (offset : Int) :
    List (Int × List Event) :=
  events.map (fun b => (b.1 + offset, b.2.map (fun e => { e with dayIndex := b.1 + offset })))

/-- The client's `hasTimeOverlap`. -/
def hasTimeOverlap (aStart aEnd bStart bEnd : Int) : Prop := aStart < bEnd ∧ aEnd > bStart

instance (aStart aEnd bStart bEnd : Int) : Decidable (hasTimeOverlap aStart aEnd bStart bEnd) :=
  inferInstanceAs (Decidable (aStart < bEnd ∧ aEnd > bStart))

/-- Modelled from the spec: the fixed display palette `PALETTE_COLORS` lives in
`src/types.ts`, which is not part of the provided sources; the spec only
requires a fixed palette cycled per accepted event, so representative hex
values are used — no claim depends on the concrete colors. -/
def PALETTE_COLORS : List String := ["#5B7FBF", "#BF5B5B", "#5BBF7F", "#BFA35B", "#7F5BBF"]

/-- Palette color for the n-th accepted event of a batch. -/
def paletteColor (i : Nat) : String :=
  (PALETTE_COLORS.get? (i % PALETTE_COLORS.length)).getD ""

/-- Unresolved-place bookkeeping of `resolvePlace`: geocode the trimmed name
through the (cached, deterministic) collaborator; record a failed non-empty
name once, as the `Set` in the source does. -/
def resolvePlace (g : String → Option Place) (unresolved : List String)
    (place : Option String) : Option Place × List String :=
  match place with
  | none => (none, unresolved)
  | some raw =>
    let key := trimS raw
    if key = "" then (none, unresolved)
    else
      match g key with
      | some loc => (some loc, unresolved)
      | none => (none, if key ∈ unresolved then unresolved else unresolved ++ [key])

/-- Accumulator of the scheduler's insertion loop. -/
structure PlanLoopState where
  events : List (Int × List Event)
  created : Nat
  skippedOverlap : Nat
  colorIdx : Nat
  unresolved : List String
deriving DecidableEq, Repr

/-- The block built for an accepted candidate: geocoded places (the `location`
from `origin`, the `destination` second, sharing the unresolved-set threading
of the source), target day index `dayDiff + offset`, and the provided or
palette color. -/
def plannedBlock (g : String → Option Place) (idGen : Nat → String) (offset : Int)
    (st : PlanLoopState) (c : ParsedPlanEvent) : Event :=
  { id := idGen st.created, dayIndex := c.dayDiff + offset, startMinutes := c.startMinutes
    endMinutes := c.endMinutes
    color := c.color.getD (paletteColor st.colorIdx)
    title := c.title, description := c.description
    location := (resolvePlace g st.unresolved c.origin).1
    destination := (resolvePlace g (resolvePlace g st.unresolved c.origin).2 c.destination).1
    routeMode := "simple" }

/-- One iteration of the scheduler's insertion loop: skip and count a candidate
that overlaps its target day bucket, otherwise geocode its places, build the
block and insert it keeping the bucket sorted by start time. -/
def insertStep (g : String → Option Place) (idGen : Nat → String) (offset : Int)
    (st : PlanLoopState) (c : ParsedPlanEvent) : PlanLoopState :=
  let dayIndex := c.dayDiff + offset
  let dayEvents := (alGet st.events dayIndex).getD []
  if ∃ ex ∈ dayEvents,
      hasTimeOverlap c.startMinutes c.endMinutes ex.startMinutes ex.endMinutes then
    { st with skippedOverlap := st.skippedOverlap + 1 }
  else
    { events := alSet st.events dayIndex
        (sortByStart (dayEvents ++ [plannedBlock g idGen offset st c]))
      created := st.created + 1, skippedOverlap := st.skippedOverlap
      colorIdx := st.colorIdx + 1
      unresolved := (resolvePlace g (resolvePlace g st.unresolved c.origin).2 c.destination).2 }

/-- Pre-batch snapshot of the client document (`RollbackSnapshot`), with the
start date as a civil day number. -/
structure RollbackSnapshot where
  events : List (Int × List Event)
  numDays : Int
  startDate : Int
  dayViewIndex : Int
deriving DecidableEq, Repr

/-- Summary returned by the scheduler (`ApplyPlanResult`). -/
structure ApplyPlanResult where
  created : Nat
  unresolvedPlaces : List String
  skippedInvalid : Nat
  skippedOverlap : Nat
deriving DecidableEq, Repr

/-- Result of `applyPlannedEvents` together with the state it commits:
`committed` records whether the setters ran; when it is false the document
fields carry the untouched snapshot values. -/
structure ApplyOutcome where
  result : ApplyPlanResult
  committed : Bool
  events : List (Int × List Event)
  numDays : Int
  startDate : Int
  dayViewIndex : Int
deriving DecidableEq, Repr

/-- Sorted candidate list of a batch. -/
def parsedOf (startDay : Int) (items : List AiPlanEvent) : List ParsedPlanEvent :=
  sortPlanned (parseBatch startDay items).1

/-- Window shift of a batch. -/
def offsetOf (startDay : Int) (items : List AiPlanEvent) : Int :=
  planOffset (parsedOf startDay items)

/-- Largest day index in use, `−1` when empty (the source's `maxIndex`
reduction). -/
def maxKeyIndex (events : List (Int × List Event)) : Int :=
  events.foldl (fun mx b => max mx b.1) (-1)

/-- The client's `applyPlannedEvents` as a pure function of the geocoder, the
id generator, the raw batch and the pre-batch snapshot. -/
def applyPlannedEvents (g : String → Option Place) (idGen : Nat → String)
    (items : List AiPlanEvent) (snapshot : RollbackSnapshot) : ApplyOutcome :=
  let skippedInvalid := (parseBatch snapshot.startDate items).2
  let parsed := parsedOf snapshot.startDate items
  if parsed = [] then
    { result := ⟨0, [], skippedInvalid, 0⟩, committed := false
      events := snapshot.events, numDays := snapshot.numDays
      startDate := snapshot.startDate, dayViewIndex := snapshot.dayViewIndex }
  else
    let offset := planOffset parsed
    let shifted := shiftEvents snapshot.events offset
    let final := parsed.foldl (insertStep g idGen offset) ⟨shifted, 0, 0, 0, []⟩
    if final.created = 0 then
      { result := ⟨0, final.unresolved, skippedInvalid, final.skippedOverlap⟩
        committed := false
        events := snapshot.events, numDays := snapshot.numDays
        startDate := snapshot.startDate, dayViewIndex := snapshot.dayViewIndex }
    else
      { result := ⟨final.created, final.unresolved, skippedInvalid, final.skippedOverlap⟩
        committed := true, events := final.events
        numDays := max (snapshot.numDays + offset) (maxKeyIndex final.events + 1)
        startDate := snapshot.startDate - offset
        dayViewIndex := snapshot.dayViewIndex + offset }

/-- Follows the spec's words: a date is valid for the Plan Normalizer when it
parses as a real calendar date in the fixed 4-digit-year/2-digit-month/
2-digit-day form (month in range, day within the month). -/
def specRealIsoDate (s : String) : Bool :=
  match isoDateFields (trimChars s.toList) with
  | some (y, m, d) => decide (validCivilYmd y m d)
  | none => false

/-- Year-at-least-100 restriction of the amended claim: the parser's
constructor round trip also rejects the four-digit years 0000–0099. -/
def specYearGE100 (s : String) : Bool :=
  match isoDateFields (trimChars s.toList) with
  | some (y, _, _) => decide (100 ≤ y)
  | none => false

/-- Two digit pairs separated by a colon, with their numeric values. -/
def timeFieldPairs : List Char → Option (Int × Int)
  | [a, b, c, d, e] =>
    if c = ':' ∧ isDigitCh a ∧ isDigitCh b ∧ isDigitCh d ∧ isDigitCh e then
      some (10 * digitVal a + digitVal b, 10 * digitVal d + digitVal e)
    else none
  | _ => none

/-- Follows the spec's words: a time is valid when it parses as 24-hour
`HH:MM` within `[00:00, 23:59]`. -/
def spec24hTime (s : String) : Bool :=
  match timeFieldPairs (trimChars s.toList) with
  | some (hh, mm) => decide (hh ≤ 23 ∧ mm ≤ 59)
  | none => false

/-- Validity of a raw item as the claim states it (real 4-digit-form date,
both times in range). -/
def specValidItem (item : AiPlanEvent) : Bool :=
  specRealIsoDate item.date && spec24hTime item.startTime && spec24hTime item.endTime

/-- Validity of a raw item as the counterexample forces the claim to be
amended: additionally the date's year must be at least 100. -/
def amendedValidItem (item : AiPlanEvent) : Bool :=
  specRealIsoDate item.date && specYearGE100 item.date &&
    spec24hTime item.startTime && spec24hTime item.endTime

/-- Concrete raw item whose date has the four-digit year 0050. -/
def year50Item : AiPlanEvent :=
  { title := "Museum", description := none, date := "0050-01-06",
    startTime := "09:00", endTime := "10:00", origin := none, destination := none,
    color := none }

/-- No two events of a bucket overlap in the sense of `hasTimeOverlap`. -/
def bucketNoOverlap (l : List Event) : Prop :=
  l.Pairwise (fun x y => ¬ (x.startMinutes < y.endMinutes ∧ x.endMinutes > y.startMinutes))

instance {κ α : Type} [DecidableEq κ] (m : List (κ × α)) : Decidable (NodupKeys m) :=
  inferInstanceAs (Decidable ((alKeys m).Nodup))

instance : DecidableRel (fun x y : Event =>
    ¬ (x.startMinutes < y.endMinutes ∧ x.endMinutes > y.startMinutes)) :=
  fun x y => inferInstanceAs
    (Decidable ¬ (x.startMinutes < y.endMinutes ∧ x.endMinutes > y.startMinutes))

instance (l : List Event) : Decidable (bucketNoOverlap l) :=
  inferInstanceAs (Decidable (l.Pairwise (fun x y : Event =>
    ¬ (x.startMinutes < y.endMinutes ∧ x.endMinutes > y.startMinutes))))

/-- Geocoder stub used as witness input: every name unresolved. -/
def noGeocoder : String → Option Place := fun _ => none

/-- Id generator used as witness input. -/
def plainIds : Nat → String := fun n => String.mk (List.replicate n 'x')

/-- Witness batch: two same-day candidates whose times overlap. -/
def c5Items : List AiPlanEvent :=
  [{ title := "A", description := none, date := "2027-01-02", startTime := "09:00",
     endTime := "10:00", origin := none, destination := none, color := none },
   { title := "B", description := none, date := "2027-01-02", startTime := "09:30",
     endTime := "10:30", origin := none, destination := none, color := none }]

/-- Witness snapshot: empty window starting 2027-01-02. -/
def c5Snapshot : RollbackSnapshot :=
  { events := [], numDays := 5, startDate := daysFromCivil 2027 1 2, dayViewIndex := 0 }

/-- Witness pre-existing event on day index 2. -/
def c6Old : Event := mkEvent ("old") 2 60 120

/-- Witness snapshot: one event at day index 2, window starting 2027-01-04. -/
def c6Snapshot : RollbackSnapshot :=
  { events := [(2, [c6Old])], numDays := 5, startDate := daysFromCivil 2027 1 4
    dayViewIndex := 0 }

/-- Witness batch: a single candidate dated three days before the window
start. -/
def c6Items : List AiPlanEvent :=
  [{ title := "NewYear", description := none, date := "2027-01-01", startTime := "09:00",
     endTime := "10:00", origin := none, destination := none, color := none }]

/-- Witness raw item whose end time exceeds its start by only 10 minutes. -/
def c10Item : AiPlanEvent :=
  { title := "Run", description := none, date := "2027-03-05", startTime := "09:00",
    endTime := "09:10", origin := none, destination := none, color := none }

/-- Typed candidate the normalizer produces for `c10Item`. -/
def c10Parsed : ParsedPlanEvent :=
  { title := "Run", description := "", date := daysFromCivil 2027 3 5
    dayDiff := daysFromCivil 2027 3 5, startMinutes := 540, endMinutes := 570
    origin := none, destination := none, color := none }

/-! Client application state: rollback ledger and the AI-message completion
path with its staleness guard. -/
/-- Parsed AI planner response (`AiPlanResponse`); the error fields only
matter on non-ok responses, which the model folds into the `responseOk`
flag. -/
structure AiPlanResponse where
  status : String
  assistantMessage : String
  events : List AiPlanEvent
deriving DecidableEq, Repr

/-- The slice of the React component state the claims are about: the working
document fields, the per-calendar rollback slots (`aiRollbackByCalendar`,
whose values may be explicitly `null`), the per-calendar chat transcripts and
the active calendar id. -/
structure AppState where
  currentCalendarId : Option String
  events : List (Int × List Event)
  numDays : Int
  startDate : Int
  dayViewIndex : Int
  aiRollback : List (String × Option RollbackSnapshot)
  aiMessages : List (String × List String)
deriving DecidableEq, Repr

/-- The client's `cloneEvents`: a value-semantics deep copy, bucket by bucket
and event by event. -/
def cloneEvents (events : List (Int × List Event)) : List (Int × List Event) :=
  events.map (fun b => (b.1, b.2.map (fun e => { e with id := e.id })))

/-- Snapshot of the current document, as `handleAiMessage` builds it before a
batch is applied. -/
def snapshotOfState (st : AppState) : RollbackSnapshot :=
  { events := cloneEvents st.events, numDays := st.numDays, startDate := st.startDate
    dayViewIndex := st.dayViewIndex }

/-- Rollback-ledger capture: unconditionally overwrite the slot held for the
calendar id. -/
def captureRollback (st : AppState) (calId : String) (snap : RollbackSnapshot) : AppState :=
  { st with aiRollback := alSet st.aiRollback calId (some snap) }

/-- Append an assistant chat message for a calendar id. -/
def appendAssistant (st : AppState) (calId : String) (text : String) : AppState :=
  { st with aiMessages :=
      (alSet st.aiMessages calId (((alGet st.aiMessages calId).getD []) ++ [text])) }

/-- The client's `handleAiRollback`: a no-op without an active calendar or a
held snapshot; otherwise restore the snapshot's document fields, clear the
slot (set it to `null`) and report. -/
def handleAiRollback (st : AppState) : AppState :=
  match st.currentCalendarId with
  | none => st
  | some calId =>
    match (alGet st.aiRollback calId).getD none with
    | none => st
    | some snap =>
      appendAssistant
        { st with events := cloneEvents snap.events, numDays := snap.numDays
                  startDate := snap.startDate, dayViewIndex := snap.dayViewIndex
                  aiRollback := alSet st.aiRollback calId none }
        calId ("Rolled back the last AI-generated event batch.")

/-- Completion path of `handleAiMessage` after the planner round trip: on a
failed response only a chat message is appended; otherwise the staleness guard
compares the captured request calendar id with the active one and discards a
stale result with a notice; a fresh `ready` result with events is applied via
`applyPlannedEvents`, the pre-request snapshot is captured for the request's
calendar when events were created, and a summary is appended. -/
def completeAiPlan (g : String → Option Place) (idGen : Nat → String) (st : AppState)
    (requestCalendarId : String) (snapshot : RollbackSnapshot) (responseOk : Bool)
    (payload : AiPlanResponse) : AppState :=
  if responseOk = false then
    appendAssistant st requestCalendarId ("The AI planner request failed.")
  else
    let assistantMessage :=
      if trimS payload.assistantMessage = "" then
        "Please provide a little more detail so I can schedule this accurately."
      else trimS payload.assistantMessage
    if st.currentCalendarId ≠ some requestCalendarId then
      appendAssistant st requestCalendarId
        (assistantMessage ++ " You switched calendars before I could apply the result.")
    else if payload.status = "ready" ∧ payload.events ≠ [] then
      let outcome := applyPlannedEvents g idGen payload.events snapshot
      let st1 :=
        if outcome.committed then
          { st with events := outcome.events, numDays := outcome.numDays
                    startDate := outcome.startDate, dayViewIndex := outcome.dayViewIndex }
        else st
      let st2 :=
        if 0 < outcome.result.created then
          { st1 with aiRollback := alSet st1.aiRollback requestCalendarId (some snapshot) }
        else st1
      appendAssistant st2 requestCalendarId assistantMessage
    else
      appendAssistant st requestCalendarId assistantMessage

/-- Witness state for the rollback and staleness claims. -/
def demoState : AppState :=
  { currentCalendarId := some ("cal-1"), events := [(0, [mkEvent ("e") 0 60 120])]
    numDays := 5, startDate := daysFromCivil 2027 1 1, dayViewIndex := 0
    aiRollback := [], aiMessages := [] }

section AssocMapLemmas

variable {κ α : Type} [DecidableEq κ]

theorem alGet_alSet_self (m : List (κ × α)) (k : κ) (v : α) :
    alGet (alSet m k v) k = some v := by
  induction m with
  | nil => simp [alSet, alGet]
  | cons p rest ih =>
    by_cases h : p.1 = k
    · simp [alSet, h, alGet]
    · simp [alSet, h, alGet, ih]

theorem alGet_alSet_ne (m : List (κ × α)) {k k' : κ} (v : α) (h : k' ≠ k) :
    alGet (alSet m k v) k' = alGet m k' := by
  induction m with
  | nil =>
    simp only [alSet, alGet]
    rw [if_neg (fun hc => h hc.symm)]
  | cons p rest ih =>
    obtain ⟨k₀, v₀⟩ := p
    by_cases hp : k₀ = k
    · subst hp
      simp only [alSet, if_pos rfl, alGet]
      rw [if_neg (fun hc => h hc.symm), if_neg (fun hc => h hc.symm)]
    · simp only [alSet, if_neg hp, alGet]
      by_cases hk : k₀ = k'
      · simp [hk]
      · simp [hk, ih]

theorem mem_alSet {m : List (κ × α)} {k : κ} {v : α} {p : κ × α}
    (h : p ∈ alSet m k v) : p = (k, v) ∨ p ∈ m := by
  induction m with
  | nil => simpa [alSet] using h
  | cons q rest ih =>
    by_cases hq : q.1 = k
    · simp only [alSet, if_pos hq, List.mem_cons] at h
      rcases h with h | h
      · exact Or.inl h
      · exact Or.inr (List.mem_cons_of_mem _ h)
    · simp only [alSet, if_neg hq, List.mem_cons] at h
      rcases h with h | h
      · exact Or.inr (h ▸ List.mem_cons_self _ _)
      · rcases ih h with h' | h'
        · exact Or.inl h'
        · exact Or.inr (List.mem_cons_of_mem _ h')

theorem alGet_eq_none_iff {m : List (κ × α)} {k : κ} :
    alGet m k = none ↔ ∀ p ∈ m, p.1 ≠ k := by
  induction m with
  | nil => simp [alGet]
  | cons p rest ih =>
    by_cases hp : p.1 = k
    · simp [alGet, hp]
    · simp [alGet, hp, ih]

theorem alGet_isSome_of_mem {m : List (κ × α)} {k : κ} {v : α} (h : (k, v) ∈ m) :
    (alGet m k).isSome := by
  induction m with
  | nil => simp at h
  | cons p rest ih =>
    obtain ⟨k₀, v₀⟩ := p
    rcases List.mem_cons.mp h with h | h
    · cases h
      simp [alGet]
    · by_cases hp : k₀ = k
      · simp [alGet, hp]
      · simp [alGet, hp, ih h]

theorem mem_of_alGet {m : List (κ × α)} {k : κ} {v : α} (h : alGet m k = some v) :
    (k, v) ∈ m := by
  induction m with
  | nil => simp [alGet] at h
  | cons p rest ih =>
    obtain ⟨k₀, v₀⟩ := p
    by_cases hp : k₀ = k
    · subst hp
      simp only [alGet, if_pos rfl] at h
      obtain rfl : v₀ = v := Option.some.inj h
      exact List.mem_cons_self _ _
    · simp only [alGet, if_neg hp] at h
      exact List.mem_cons_of_mem _ (ih h)

theorem alGet_of_mem_nodup {m : List (κ × α)} {k : κ} {v : α}
    (hnd : NodupKeys m) (h : (k, v) ∈ m) : alGet m k = some v := by
  induction m with
  | nil => simp at h
  | cons p rest ih =>
    obtain ⟨k₀, v₀⟩ := p
    have hnd' : NodupKeys rest := (List.nodup_cons.mp hnd).2
    rcases List.mem_cons.mp h with h | h
    · cases h
      simp [alGet]
    · have hk : k₀ ≠ k := by
        intro hk
        exact (List.nodup_cons.mp hnd).1 (hk ▸ List.mem_map.mpr ⟨(k, v), h, rfl⟩)
      simp [alGet, hk, ih hnd' h]

theorem alKeys_alSet (m : List (κ × α)) (k : κ) (v : α) :
    alKeys (alSet m k v) = if (alGet m k).isSome then alKeys m else alKeys m ++ [k] := by
  induction m with
  | nil => simp [alSet, alKeys, alGet]
  | cons p rest ih =>
    by_cases hp : p.1 = k
    · simp [alSet, hp, alKeys, alGet]
    · simp only [alSet, if_neg hp, alKeys, List.map_cons, alGet, hp, if_false]
      by_cases hs : (alGet rest k).isSome
      · have := ih
        simp only [alKeys] at this
        simp [hp, hs, this]
      · have := ih
        simp only [alKeys] at this
        simp [hp, hs, this]

theorem nodupKeys_alSet {m : List (κ × α)} (hnd : NodupKeys m) (k : κ) (v : α) :
    NodupKeys (alSet m k v) := by
  unfold NodupKeys
  rw [alKeys_alSet]
  by_cases hs : (alGet m k).isSome
  · rw [if_pos hs]
    exact hnd
  · have hk : k ∉ alKeys m := by
      intro hmem
      rcases List.mem_map.mp hmem with ⟨p, hp, hfst⟩
      obtain ⟨k₀, v₀⟩ := p
      obtain rfl : k₀ = k := hfst
      exact hs (alGet_isSome_of_mem hp)
    rw [if_neg hs]
    refine List.Nodup.append hnd (by simp) ?_
    intro a ha hb
    simp only [List.mem_singleton] at hb
    exact hk (hb ▸ ha)

theorem alSet_append_fresh {m : List (κ × α)} {k : κ} (v : α)
    (h : ∀ p ∈ m, p.1 ≠ k) : alSet m k v = m ++ [(k, v)] := by
  induction m with
  | nil => simp [alSet]
  | cons p rest ih =>
    have hp : p.1 ≠ k := h p (List.mem_cons_self _ _)
    simp [alSet, hp, ih (fun q hq => h q (List.mem_cons_of_mem _ hq))]

theorem alGet_alDelete_self (m : List (κ × α)) (k : κ) :
    alGet (alDelete m k) k = none := by
  rw [alGet_eq_none_iff]
  intro p hp
  have := List.of_mem_filter hp
  simpa using this

theorem alGet_alDelete_ne (m : List (κ × α)) {k k' : κ} (h : k' ≠ k) :
    alGet (alDelete m k) k' = alGet m k' := by
  induction m with
  | nil => simp [alDelete, alGet]
  | cons p rest ih =>
    obtain ⟨k₀, v₀⟩ := p
    by_cases hp : k₀ = k
    · subst hp
      have hd : alDelete ((k₀, v₀) :: rest) k₀ = alDelete rest k₀ := by
        simp [alDelete, List.filter_cons]
      rw [hd, ih]
      have hk' : k₀ ≠ k' := fun hc => h hc.symm
      simp [alGet, hk']
    · have hd : alDelete ((k₀, v₀) :: rest) k = (k₀, v₀) :: alDelete rest k := by
        simp [alDelete, List.filter_cons, hp]
      rw [hd]
      by_cases hk : k₀ = k'
      · simp [alGet, hk]
      · simp [alGet, hk, ih]

theorem mem_alDelete {m : List (κ × α)} {k : κ} {p : κ × α}
    (h : p ∈ alDelete m k) : p ∈ m :=
  List.mem_of_mem_filter h

end AssocMapLemmas

theorem mergeSets_cons (baseMap cur : List (String × Event)) (p : String × Event)
    (rest : List (String × Event)) :
    mergeSets baseMap cur (p :: rest) =
      mergeSets baseMap (if alGet baseMap p.1 = some p.2 then cur else alSet cur p.1 p.2) rest :=
  rfl

theorem mergeDeletes_cons (p : String × Event) (rest inc m : List (String × Event)) :
    mergeDeletes (p :: rest) inc m =
      mergeDeletes rest inc (if alHas inc p.1 then m else alDelete m p.1) :=
  rfl

theorem mergeSets_get_skip {baseMap inc : List (String × Event)} {x : String}
    (h : ∀ p ∈ inc, p.1 = x → alGet baseMap x = some p.2) (cur : List (String × Event)) :
    alGet (mergeSets baseMap cur inc) x = alGet cur x := by
  induction inc generalizing cur with
  | nil => rfl
  | cons p rest ih =>
    have hrest : ∀ q ∈ rest, q.1 = x → alGet baseMap x = some q.2 :=
      fun q hq => h q (List.mem_cons_of_mem _ hq)
    by_cases hc : alGet baseMap p.1 = some p.2
    · rw [mergeSets_cons, if_pos hc]
      exact ih hrest cur
    · rw [mergeSets_cons, if_neg hc]
      have hx : p.1 ≠ x := by
        intro hx
        exact hc (hx ▸ h p (List.mem_cons_self _ _) hx)
      rw [ih hrest (alSet cur p.1 p.2), alGet_alSet_ne _ _ (fun hc' => hx hc'.symm)]

theorem mergeSets_get_write {baseMap inc : List (String × Event)} {a : String} {A : Event}
    (hnd : NodupKeys inc) (hmem : (a, A) ∈ inc) (hne : alGet baseMap a ≠ some A)
    (cur : List (String × Event)) :
    alGet (mergeSets baseMap cur inc) a = some A := by
  induction inc generalizing cur with
  | nil => simp at hmem
  | cons p rest ih =>
    have hnd' : NodupKeys rest := (List.nodup_cons.mp hnd).2
    rcases List.mem_cons.mp hmem with h | h
    · cases h.symm
      rw [mergeSets_cons, if_neg hne]
      have hskip : ∀ q ∈ rest, q.1 = a → alGet baseMap a = some q.2 := by
        intro q hq hqa
        exact absurd (hqa ▸ List.mem_map.mpr ⟨q, hq, rfl⟩) (List.nodup_cons.mp hnd).1
      rw [mergeSets_get_skip hskip (alSet cur a A), alGet_alSet_self]
    · by_cases hc : alGet baseMap p.1 = some p.2
      · rw [mergeSets_cons, if_pos hc]
        exact ih hnd' h cur
      · rw [mergeSets_cons, if_neg hc]
        exact ih hnd' h (alSet cur p.1 p.2)

theorem mergeSets_id {baseMap inc : List (String × Event)}
    (h : ∀ p ∈ inc, alGet baseMap p.1 = some p.2) (cur : List (String × Event)) :
    mergeSets baseMap cur inc = cur := by
  induction inc generalizing cur with
  | nil => rfl
  | cons p rest ih =>
    rw [mergeSets_cons, if_pos (h p (List.mem_cons_self _ _))]
    exact ih (fun q hq => h q (List.mem_cons_of_mem _ hq)) cur

theorem mergeDeletes_id {baseMap inc : List (String × Event)}
    (h : ∀ p ∈ baseMap, alHas inc p.1 = true) (m : List (String × Event)) :
    mergeDeletes baseMap inc m = m := by
  induction baseMap generalizing m with
  | nil => rfl
  | cons p rest ih =>
    rw [mergeDeletes_cons, if_pos (h p (List.mem_cons_self _ _))]
    exact ih (fun q hq => h q (List.mem_cons_of_mem _ hq)) m

theorem mergeDeletes_get_keep {baseMap inc : List (String × Event)} {x : String}
    (h : ∀ p ∈ baseMap, p.1 = x → alHas inc x = true) (m : List (String × Event)) :
    alGet (mergeDeletes baseMap inc m) x = alGet m x := by
  induction baseMap generalizing m with
  | nil => rfl
  | cons p rest ih =>
    have hrest : ∀ q ∈ rest, q.1 = x → alHas inc x = true :=
      fun q hq => h q (List.mem_cons_of_mem _ hq)
    by_cases hc : alHas inc p.1 = true
    · rw [mergeDeletes_cons, if_pos hc]
      exact ih hrest m
    · rw [mergeDeletes_cons, if_neg hc]
      have hx : p.1 ≠ x := fun hx => hc (hx ▸ h p (List.mem_cons_self _ _) hx)
      rw [ih hrest (alDelete m p.1), alGet_alDelete_ne _ (fun hc' => hx hc'.symm)]

theorem mergeDeletes_get_none {baseMap inc : List (String × Event)} {x : String}
    {m : List (String × Event)} (h : alGet m x = none) :
    alGet (mergeDeletes baseMap inc m) x = none := by
  induction baseMap generalizing m with
  | nil => exact h
  | cons p rest ih =>
    by_cases hc : alHas inc p.1 = true
    · rw [mergeDeletes_cons, if_pos hc]
      exact ih h
    · rw [mergeDeletes_cons, if_neg hc]
      by_cases hx : x = p.1
      · exact ih (hx ▸ alGet_alDelete_self m p.1)
      · exact ih ((alGet_alDelete_ne m hx).trans h)

theorem mergeDeletes_get_del {baseMap inc : List (String × Event)} {x : String} {v : Event}
    (hmem : (x, v) ∈ baseMap) (hno : alHas inc x = false) (m : List (String × Event)) :
    alGet (mergeDeletes baseMap inc m) x = none := by
  induction baseMap generalizing m with
  | nil => simp at hmem
  | cons p rest ih =>
    rcases List.mem_cons.mp hmem with h | h
    · cases h.symm
      have hc : ¬ alHas inc x = true := by simp [hno]
      rw [mergeDeletes_cons, if_neg hc]
      exact mergeDeletes_get_none (alGet_alDelete_self m x)
    · by_cases hc : alHas inc p.1 = true
      · rw [mergeDeletes_cons, if_pos hc]
        exact ih h m
      · rw [mergeDeletes_cons, if_neg hc]
        exact ih h (alDelete m p.1)

theorem keyedById_flattenEvents (ev : List (Int × List Event)) :
    KeyedById (flattenEvents ev) := by
  have main : ∀ (l : List (Int × List Event)) (m : List (String × Event)), KeyedById m →
      KeyedById (l.foldl (fun m bucket =>
        bucket.2.foldl (fun m e => if e.id = "" then m else alSet m e.id e) m) m) := by
    intro l
    induction l with
    | nil => intro m hm; exact hm
    | cons b rest ih =>
      intro m hm
      refine ih _ ?_
      have inner : ∀ (evs : List Event) (m : List (String × Event)), KeyedById m →
          KeyedById (evs.foldl (fun m e => if e.id = "" then m else alSet m e.id e) m) := by
        intro evs
        induction evs with
        | nil => intro m hm; exact hm
        | cons e evs ih2 =>
          intro m hm
          by_cases he : e.id = ""
          · simpa [he] using ih2 m hm
          · simp only [List.foldl_cons, if_neg he]
            refine ih2 _ ?_
            intro p hp
            rcases mem_alSet hp with h | h
            · cases h
              rfl
            · exact hm p h
      exact inner b.2 m hm
  exact main ev [] (by intro p hp; simp at hp)

theorem nodupKeys_flattenEvents (ev : List (Int × List Event)) :
    NodupKeys (flattenEvents ev) := by
  have main : ∀ (l : List (Int × List Event)) (m : List (String × Event)), NodupKeys m →
      NodupKeys (l.foldl (fun m bucket =>
        bucket.2.foldl (fun m e => if e.id = "" then m else alSet m e.id e) m) m) := by
    intro l
    induction l with
    | nil => intro m hm; exact hm
    | cons b rest ih =>
      intro m hm
      refine ih _ ?_
      have inner : ∀ (evs : List Event) (m : List (String × Event)), NodupKeys m →
          NodupKeys (evs.foldl (fun m e => if e.id = "" then m else alSet m e.id e) m) := by
        intro evs
        induction evs with
        | nil => intro m hm; exact hm
        | cons e evs ih2 =>
          intro m hm
          by_cases he : e.id = ""
          · simpa [he] using ih2 m hm
          · simp only [List.foldl_cons, if_neg he]
            exact ih2 _ (nodupKeys_alSet hm e.id e)
      exact inner b.2 m hm
  exact main ev [] (by simp [NodupKeys, alKeys])

theorem keyedById_mergeSets {baseMap cur inc : List (String × Event)}
    (hcur : KeyedById cur) (hinc : KeyedById inc) :
    KeyedById (mergeSets baseMap cur inc) := by
  induction inc generalizing cur with
  | nil => exact hcur
  | cons p rest ih =>
    have hrest : KeyedById rest := fun q hq => hinc q (List.mem_cons_of_mem _ hq)
    by_cases hc : alGet baseMap p.1 = some p.2
    · rw [mergeSets_cons, if_pos hc]
      exact ih hcur hrest
    · rw [mergeSets_cons, if_neg hc]
      refine ih ?_ hrest
      intro q hq
      rcases mem_alSet hq with h | h
      · cases h
        exact hinc p (List.mem_cons_self _ _)
      · exact hcur q h

theorem keyedById_mergeDeletes {baseMap inc m : List (String × Event)}
    (hm : KeyedById m) : KeyedById (mergeDeletes baseMap inc m) := by
  induction baseMap generalizing m with
  | nil => exact hm
  | cons p rest ih =>
    by_cases hc : alHas inc p.1 = true
    · rw [mergeDeletes_cons, if_pos hc]
      exact ih hm
    · rw [mergeDeletes_cons, if_neg hc]
      exact ih (fun q hq => hm q (mem_alDelete hq))

theorem insertByStart_perm (e : Event) (l : List Event) :
    List.Perm (insertByStart e l) (e :: l) := by
  induction l with
  | nil => simp [insertByStart]
  | cons x xs ih =>
    by_cases h : e.startMinutes ≤ x.startMinutes
    · simp [insertByStart, h]
    · simp only [insertByStart, if_neg h]
      exact (ih.cons x).trans (List.Perm.swap e x xs)

theorem sortByStart_perm (l : List Event) : List.Perm (sortByStart l) l := by
  induction l with
  | nil => simp [sortByStart]
  | cons x xs ih =>
    have : sortByStart (x :: xs) = insertByStart x (sortByStart xs) := rfl
    rw [this]
    exact (insertByStart_perm x (sortByStart xs)).trans (ih.cons x)

theorem mem_sortByStart {e : Event} {l : List Event} : e ∈ sortByStart l ↔ e ∈ l :=
  (sortByStart_perm l).mem_iff

theorem bucketsEvents_insertGrouped (g : List (Int × List Event)) (e : Event) :
    List.Perm (bucketsEvents (insertGrouped g e)) (e :: bucketsEvents g) := by
  induction g with
  | nil => simp [insertGrouped, bucketsEvents]
  | cons b rest ih =>
    obtain ⟨k, evs⟩ := b
    by_cases h1 : e.dayIndex = k
    · simp only [insertGrouped, if_pos h1, bucketsEvents, List.map_cons, List.flatten_cons]
      rw [List.append_assoc]
      exact List.perm_middle
    · by_cases h2 : e.dayIndex < k
      · simp [insertGrouped, h1, h2, bucketsEvents]
      · simp only [insertGrouped, if_neg h1, if_neg h2, bucketsEvents, List.map_cons,
          List.flatten_cons]
        have step : List.Perm (evs ++ bucketsEvents (insertGrouped rest e))
            (evs ++ e :: bucketsEvents rest) := List.Perm.append_left evs ih
        exact step.trans List.perm_middle

theorem bucketsEvents_groupFold (m : List (String × Event)) (g : List (Int × List Event)) :
    List.Perm (bucketsEvents (m.foldl (fun g p => insertGrouped g p.2) g))
      (m.map Prod.snd ++ bucketsEvents g) := by
  induction m generalizing g with
  | nil => simp
  | cons p rest ih =>
    simp only [List.foldl_cons, List.map_cons, List.cons_append]
    have h1 := ih (insertGrouped g p.2)
    have h2 : List.Perm (rest.map Prod.snd ++ bucketsEvents (insertGrouped g p.2))
        (rest.map Prod.snd ++ p.2 :: bucketsEvents g) :=
      List.Perm.append_left _ (bucketsEvents_insertGrouped g p.2)
    exact (h1.trans h2).trans List.perm_middle

theorem bucketsEvents_sortMap (g : List (Int × List Event)) :
    List.Perm (bucketsEvents (g.map (fun b => (b.1, sortByStart b.2)))) (bucketsEvents g) := by
  induction g with
  | nil => simp [bucketsEvents]
  | cons b rest ih =>
    simp only [List.map_cons, bucketsEvents, List.flatten_cons]
    exact List.Perm.append (sortByStart_perm b.2) ih

theorem mem_bucketsEvents_groupByDay {m : List (String × Event)} {e : Event} :
    e ∈ bucketsEvents (groupByDay m) ↔ e ∈ m.map Prod.snd := by
  unfold groupByDay
  rw [(bucketsEvents_sortMap _).mem_iff, (bucketsEvents_groupFold m []).mem_iff]
  simp [bucketsEvents]

theorem docContains_iff {s : CalendarState} {e : Event} :
    docContains s e ↔ e ∈ bucketsEvents s.events := by
  unfold docContains bucketsEvents
  rw [List.mem_flatten]
  constructor
  · rintro ⟨p, hp, he⟩
    exact ⟨p.2, List.mem_map.mpr ⟨p, hp, rfl⟩, he⟩
  · rintro ⟨l, hl, he⟩
    rcases List.mem_map.mp hl with ⟨p, hp, rfl⟩
    exact ⟨p, hp, he⟩

/-- C1 helper: the merged working map holds the incoming event at an id the
caller changed. -/
theorem mergeEventMaps_get_changed {baseMap incMap curMap : List (String × Event)}
    {a : String} {A : Event} (hnd : NodupKeys incMap)
    (hA : alGet incMap a = some A) (hbase : alGet baseMap a ≠ some A) :
    alGet (mergeEventMaps baseMap incMap curMap) a = some A := by
  unfold mergeEventMaps
  have hw := mergeSets_get_write hnd (mem_of_alGet hA) hbase curMap
  have hkeep : ∀ p ∈ baseMap, p.1 = a → alHas incMap a = true := by
    intro p _ _
    simp [alHas, hA]
  rw [mergeDeletes_get_keep hkeep, hw]

/-- C1 helper: the merged working map is untouched at an id the caller did not
change. -/
theorem mergeEventMaps_get_unchanged {baseMap incMap curMap : List (String × Event)}
    {b : String} (hnd : NodupKeys incMap)
    (hsame : alGet incMap b = alGet baseMap b) :
    alGet (mergeEventMaps baseMap incMap curMap) b = alGet curMap b := by
  unfold mergeEventMaps
  have hskip : ∀ p ∈ incMap, p.1 = b → alGet baseMap b = some p.2 := by
    intro p hp hpb
    have hmem : (b, p.2) ∈ incMap := by
      rw [← hpb]
      exact hp
    have := alGet_of_mem_nodup hnd hmem
    rw [← hsame, this]
  have hkeep : ∀ p ∈ baseMap, p.1 = b → alHas incMap b = true := by
    intro p hp hpb
    have hmem : (b, p.2) ∈ baseMap := by
      rw [← hpb]
      exact hp
    have : (alGet baseMap b).isSome := alGet_isSome_of_mem hmem
    simpa [alHas, hsame] using this
  rw [mergeDeletes_get_keep hkeep, mergeSets_get_skip hskip]

/-- C1: non-interference of the merge engine.  If `incoming` differs from
`base` only at the single event id `a` (where it carries event `A`, added or
edited), and `current` carries event `B` at a distinct id `b`, then the merged
document contains both `incoming`'s `A` and `current`'s `B`. -/
theorem merge_non_interference (current base incoming : CalendarState)
    (a b : String) (A B : Event) (hab : a ≠ b)
    (hA : alGet (flattenEvents incoming.events) a = some A)
    (hAbase : alGet (flattenEvents base.events) a ≠ some A)
    (hsame : ∀ i, i ≠ a →
      alGet (flattenEvents incoming.events) i = alGet (flattenEvents base.events) i)
    (hB : alGet (flattenEvents current.events) b = some B) :
    docContains (mergeState current base incoming) A ∧
      docContains (mergeState current base incoming) B := by
  have hnd := nodupKeys_flattenEvents incoming.events
  have hev : (mergeState current base incoming).events =
      groupByDay (mergeEventMaps (flattenEvents base.events)
        (flattenEvents incoming.events) (flattenEvents current.events)) := rfl
  have hgA : alGet (mergeEventMaps (flattenEvents base.events)
      (flattenEvents incoming.events) (flattenEvents current.events)) a = some A :=
    mergeEventMaps_get_changed hnd hA hAbase
  have hgB : alGet (mergeEventMaps (flattenEvents base.events)
      (flattenEvents incoming.events) (flattenEvents current.events)) b = some B := by
    rw [mergeEventMaps_get_unchanged hnd (hsame b (fun hc => hab hc.symm)), hB]
  constructor
  · rw [docContains_iff, hev, mem_bucketsEvents_groupByDay]
    exact List.mem_map.mpr ⟨(a, A), mem_of_alGet hgA, rfl⟩
  · rw [docContains_iff, hev, mem_bucketsEvents_groupByDay]
    exact List.mem_map.mpr ⟨(b, B), mem_of_alGet hgB, rfl⟩

/-- C1 witness: a concrete base, an `incoming` adding event `a` on day 1, and a
`current` that edited event `b` on day 0; the merge keeps both. -/
theorem merge_non_interference_witness :
    docContains
      (mergeState (mkDoc [(0, [mkEvent ("b") 0 61 121])])
        (mkDoc [(0, [mkEvent ("b") 0 60 120])])
        (mkDoc [(0, [mkEvent ("b") 0 60 120]), (1, [mkEvent ("a") 1 300 360])]))
      (mkEvent ("a") 1 300 360) ∧
    docContains
      (mergeState (mkDoc [(0, [mkEvent ("b") 0 61 121])])
        (mkDoc [(0, [mkEvent ("b") 0 60 120])])
        (mkDoc [(0, [mkEvent ("b") 0 60 120]), (1, [mkEvent ("a") 1 300 360])]))
      (mkEvent ("b") 0 61 121) := by
  refine merge_non_interference _ _ _ ("a") ("b") _ _ (by decide) (by decide) (by decide) ?_
    (by decide)
  intro i hi
  have h1 : flattenEvents (mkDoc [(0, [mkEvent ("b") 0 60 120]),
      (1, [mkEvent ("a") 1 300 360])]).events =
      [(("b" : String), mkEvent ("b") 0 60 120), (("a" : String), mkEvent ("a") 1 300 360)] := by
    decide
  have h2 : flattenEvents (mkDoc [(0, [mkEvent ("b") 0 60 120])]).events =
      [(("b" : String), mkEvent ("b") 0 60 120)] := by
    decide
  rw [h1, h2]
  by_cases hb : ("b" : String) = i
  · simp [alGet, hb]
  · have ha : ("a" : String) ≠ i := fun hc => hi hc.symm
    simp [alGet, hb, ha]

/-- C2: delete-wins in the merge engine.  If `base` holds an event under id
`X`, `incoming` holds none (the caller deleted it), and `current` still holds a
concurrently edited version, then no event of the merged document has id `X`. -/
theorem merge_delete_wins (current base incoming : CalendarState)
    (X : String) (EX EXcur : Event)
    (hbase : alGet (flattenEvents base.events) X = some EX)
    (hinc : alGet (flattenEvents incoming.events) X = none)
    (hcur : alGet (flattenEvents current.events) X = some EXcur) :
    ∀ e, docContains (mergeState current base incoming) e → e.id ≠ X := by
  intro e he heq
  have hkid : KeyedById (mergeEventMaps (flattenEvents base.events)
      (flattenEvents incoming.events) (flattenEvents current.events)) :=
    keyedById_mergeDeletes (keyedById_mergeSets (keyedById_flattenEvents _)
      (keyedById_flattenEvents _))
  have hnone : alGet (mergeEventMaps (flattenEvents base.events)
      (flattenEvents incoming.events) (flattenEvents current.events)) X = none := by
    unfold mergeEventMaps
    exact mergeDeletes_get_del (mem_of_alGet hbase) (by simp [alHas, hinc]) _
  have hev : (mergeState current base incoming).events =
      groupByDay (mergeEventMaps (flattenEvents base.events)
        (flattenEvents incoming.events) (flattenEvents current.events)) := rfl
  rw [docContains_iff, hev, mem_bucketsEvents_groupByDay] at he
  rcases List.mem_map.mp he with ⟨p, hp, rfl⟩
  have hid : p.2.id = p.1 := hkid p hp
  have hmem : (X, p.2) ∈ mergeEventMaps (flattenEvents base.events)
      (flattenEvents incoming.events) (flattenEvents current.events) := by
    rw [← heq, hid]
    exact hp
  have := alGet_isSome_of_mem hmem
  rw [hnone] at this
  simp at this

/-- C2 witness: base holds event `x`, incoming omits it, current edited it; the
edited version is gone from the merge result. -/
theorem merge_delete_wins_witness :
    ¬ docContains
      (mergeState (mkDoc [(0, [mkEvent ("x") 0 61 121])])
        (mkDoc [(0, [mkEvent ("x") 0 60 120])]) (mkDoc []))
      (mkEvent ("x") 0 61 121) :=
  fun h =>
    merge_delete_wins (mkDoc [(0, [mkEvent ("x") 0 61 121])])
      (mkDoc [(0, [mkEvent ("x") 0 60 120])]) (mkDoc []) ("x")
      (mkEvent ("x") 0 60 120) (mkEvent ("x") 0 61 121)
      (by decide) (by decide) (by decide) (mkEvent ("x") 0 61 121) h rfl

/-- C4: revision discipline of the revisioned store.  A fresh calendar starts
at revision 0; an accepted save leaves the revision unchanged exactly when the
resulting document equals the stored one, and otherwise increments it by 1. -/
theorem revision_discipline :
    (∀ s, (createCalendar s).revision = 0) ∧
      ∀ cal incoming base baseRevision,
        (putCalendar cal incoming base baseRevision).revision =
          if nextStateOf cal incoming base baseRevision = cal.state then cal.revision
          else cal.revision + 1 := by
  refine ⟨fun s => rfl, ?_⟩
  intro cal incoming base baseRevision
  unfold putCalendar
  by_cases h : nextStateOf cal incoming base baseRevision = cal.state
  · simp [h]
  · simp [h]

theorem foldEvents_append {l : List Event} {m : List (String × Event)}
    (hid : ∀ e ∈ l, e.id ≠ "")
    (hfresh : ∀ e ∈ l, ∀ p ∈ m, p.1 ≠ e.id)
    (hnd : (l.map Event.id).Nodup) :
    l.foldl (fun m e => if e.id = "" then m else alSet m e.id e) m
      = m ++ l.map (fun e => (e.id, e)) := by
  induction l generalizing m with
  | nil => simp
  | cons e rest ih =>
    have he : e.id ≠ "" := hid e (List.mem_cons_self _ _)
    rw [List.foldl_cons, if_neg he,
      alSet_append_fresh e (fun p hp => hfresh e (List.mem_cons_self _ _) p hp)]
    have hnd' : (rest.map Event.id).Nodup := (List.nodup_cons.mp hnd).2
    have hout : e.id ∉ rest.map Event.id := (List.nodup_cons.mp hnd).1
    rw [ih (fun x hx => hid x (List.mem_cons_of_mem _ hx)) ?_ hnd']
    · simp
    · intro x hx p hp
      rcases List.mem_append.mp hp with hp | hp
      · exact hfresh x (List.mem_cons_of_mem _ hx) p hp
      · simp only [List.mem_singleton] at hp
        subst hp
        intro hc
        refine hout ?_
        rw [show e.id = x.id from hc]
        exact List.mem_map.mpr ⟨x, hx, rfl⟩

theorem flattenFold_append {ev : List (Int × List Event)} {m : List (String × Event)}
    (hid : ∀ e ∈ bucketsEvents ev, e.id ≠ "")
    (hfresh : ∀ e ∈ bucketsEvents ev, ∀ p ∈ m, p.1 ≠ e.id)
    (hnd : ((bucketsEvents ev).map Event.id).Nodup) :
    ev.foldl (fun m bucket =>
        bucket.2.foldl (fun m e => if e.id = "" then m else alSet m e.id e) m) m
      = m ++ (bucketsEvents ev).map (fun e => (e.id, e)) := by
  induction ev generalizing m with
  | nil => simp [bucketsEvents]
  | cons b rest ih =>
    have hbe : bucketsEvents (b :: rest) = b.2 ++ bucketsEvents rest := by
      simp [bucketsEvents]
    rw [hbe] at hid hfresh hnd
    have hmem1 : ∀ e ∈ b.2, e ∈ b.2 ++ bucketsEvents rest := fun e he => List.mem_append_left _ he
    have hmem2 : ∀ e ∈ bucketsEvents rest, e ∈ b.2 ++ bucketsEvents rest :=
      fun e he => List.mem_append_right _ he
    have hmapsplit : ((b.2 ++ bucketsEvents rest).map Event.id) =
        b.2.map Event.id ++ (bucketsEvents rest).map Event.id := by simp
    rw [hmapsplit] at hnd
    have hnd1 : (b.2.map Event.id).Nodup := (List.nodup_append.mp hnd).1
    have hnd2 : ((bucketsEvents rest).map Event.id).Nodup := (List.nodup_append.mp hnd).2.1
    have hdisj := (List.nodup_append.mp hnd).2.2
    rw [List.foldl_cons,
      foldEvents_append (fun e he => hid e (hmem1 e he))
        (fun e he p hp => hfresh e (hmem1 e he) p hp) hnd1,
      ih (fun e he => hid e (hmem2 e he)) ?_ hnd2]
    · rw [hbe]
      simp
    · intro e he p hp
      rcases List.mem_append.mp hp with hp | hp
      · exact hfresh e (hmem2 e he) p hp
      · rcases List.mem_map.mp hp with ⟨x, hx, rfl⟩
        simp only
        intro hc
        exact hdisj (List.mem_map.mpr ⟨x, hx, rfl⟩)
          (hc ▸ List.mem_map.mpr ⟨e, he, rfl⟩)

theorem flattenEvents_eq_pairs {ev : List (Int × List Event)}
    (hid : ∀ e ∈ bucketsEvents ev, e.id ≠ "")
    (hnd : ((bucketsEvents ev).map Event.id).Nodup) :
    flattenEvents ev = (bucketsEvents ev).map (fun e => (e.id, e)) := by
  unfold flattenEvents
  rw [flattenFold_append hid (by intro e _ p hp; simp at hp) hnd]
  simp

theorem insertGrouped_last {g : List (Int × List Event)} {k : Int} {e : Event}
    (hlt : ∀ p ∈ g, p.1 < k) (he : e.dayIndex = k) :
    insertGrouped g e = g ++ [(k, [e])] := by
  induction g with
  | nil => simp [insertGrouped, he]
  | cons b rest ih =>
    obtain ⟨k₀, evs⟩ := b
    have hk₀ : k₀ < k := hlt (k₀, evs) (List.mem_cons_self _ _)
    have h1 : e.dayIndex ≠ k₀ := by omega
    have h2 : ¬ e.dayIndex < k₀ := by omega
    simp only [insertGrouped, if_neg h1, if_neg h2]
    rw [ih (fun p hp => hlt p (List.mem_cons_of_mem _ hp))]
    simp

theorem insertGrouped_app {g₀ : List (Int × List Event)} {k : Int} {evs : List Event} {e : Event}
    (hlt : ∀ p ∈ g₀, p.1 < k) (he : e.dayIndex = k) :
    insertGrouped (g₀ ++ [(k, evs)]) e = g₀ ++ [(k, evs ++ [e])] := by
  induction g₀ with
  | nil => simp [insertGrouped, he]
  | cons b rest ih =>
    obtain ⟨k₀, evs₀⟩ := b
    have hk₀ : k₀ < k := hlt (k₀, evs₀) (List.mem_cons_self _ _)
    have h1 : e.dayIndex ≠ k₀ := by omega
    have h2 : ¬ e.dayIndex < k₀ := by omega
    show insertGrouped ((k₀, evs₀) :: (rest ++ [(k, evs)])) e
        = (k₀, evs₀) :: (rest ++ [(k, evs ++ [e])])
    simp only [insertGrouped, if_neg h1, if_neg h2]
    exact congrArg _ (ih (fun p hp => hlt p (List.mem_cons_of_mem _ hp)))

theorem foldBucket {k : Int} (evs' : List Event) :
    ∀ (g₀ : List (Int × List Event)) (evs : List Event),
      (∀ p ∈ g₀, p.1 < k) → (∀ e ∈ evs', e.dayIndex = k) →
      evs'.foldl insertGrouped (g₀ ++ [(k, evs)]) = g₀ ++ [(k, evs ++ evs')] := by
  induction evs' with
  | nil => intro g₀ evs _ _; simp
  | cons e rest ih =>
    intro g₀ evs hlt hday
    rw [List.foldl_cons, insertGrouped_app hlt (hday e (List.mem_cons_self _ _)),
      ih g₀ (evs ++ [e]) hlt (fun x hx => hday x (List.mem_cons_of_mem _ hx))]
    simp

theorem groupFold_structured :
    ∀ (ev g : List (Int × List Event)),
      List.Chain' (· < ·) ((g ++ ev).map Prod.fst) →
      (∀ p ∈ ev, p.2 ≠ []) →
      (∀ p ∈ ev, ∀ e ∈ p.2, e.dayIndex = p.1) →
      (bucketsEvents ev).foldl insertGrouped g = g ++ ev := by
  intro ev
  induction ev with
  | nil => intro g _ _ _; simp [bucketsEvents]
  | cons b rest ih =>
    intro g hasc hne hday
    obtain ⟨k, evs⟩ := b
    have hlt : ∀ p ∈ g, p.1 < k := by
      have hpw : List.Pairwise (· < ·) ((g ++ (k, evs) :: rest).map Prod.fst) :=
        List.chain'_iff_pairwise.mp hasc
      rw [List.map_append] at hpw
      have := (List.pairwise_append.mp hpw).2.2
      intro p hp
      exact this p.1 (List.mem_map.mpr ⟨p, hp, rfl⟩) k (by simp)
    have hdayb : ∀ e ∈ evs, e.dayIndex = k := fun e he => hday (k, evs) (List.mem_cons_self _ _) e he
    have hbe : bucketsEvents ((k, evs) :: rest) = evs ++ bucketsEvents rest := by
      simp [bucketsEvents]
    rw [hbe, List.foldl_append]
    obtain ⟨e₀, evs₀, rfl⟩ : ∃ x xs, evs = x :: xs := by
      rcases evs with _ | ⟨x, xs⟩
      · exact absurd rfl (hne (k, []) (List.mem_cons_self _ _))
      · exact ⟨x, xs, rfl⟩
    rw [List.foldl_cons, insertGrouped_last hlt (hdayb e₀ (List.mem_cons_self _ _)),
      foldBucket evs₀ g [e₀] hlt (fun x hx => hdayb x (List.mem_cons_of_mem _ hx))]
    have happ : g ++ [(k, e₀ :: evs₀)] ++ rest = g ++ (k, e₀ :: evs₀) :: rest := by
      simp
    simp only [List.singleton_append]
    rw [ih (g ++ [(k, e₀ :: evs₀)]) (by rw [happ]; exact hasc)
      (fun p hp => hne p (List.mem_cons_of_mem _ hp))
      (fun p hp => hday p (List.mem_cons_of_mem _ hp)), happ]

theorem sortByStart_eq_of_sorted {l : List Event}
    (h : List.Chain' (fun x y => x.startMinutes ≤ y.startMinutes) l) :
    sortByStart l = l := by
  induction l with
  | nil => rfl
  | cons x xs ih =>
    have hstep : sortByStart (x :: xs) = insertByStart x (sortByStart xs) := rfl
    rw [hstep, ih (List.Chain'.tail h)]
    rcases xs with _ | ⟨y, ys⟩
    · rfl
    · have hxy : x.startMinutes ≤ y.startMinutes := List.chain'_cons.mp h |>.1
      simp [insertByStart, hxy]

theorem mem_bucketsEvents {ev : List (Int × List Event)} {e : Event} :
    e ∈ bucketsEvents ev ↔ ∃ p ∈ ev, e ∈ p.2 := by
  unfold bucketsEvents
  rw [List.mem_flatten]
  constructor
  · rintro ⟨l, hl, he⟩
    rcases List.mem_map.mp hl with ⟨p, hp, rfl⟩
    exact ⟨p, hp, he⟩
  · rintro ⟨p, hp, he⟩
    exact ⟨p.2, List.mem_map.mpr ⟨p, hp, rfl⟩, he⟩

theorem map_sort_id {ev : List (Int × List Event)}
    (hs : ∀ p ∈ ev, sortByStart p.2 = p.2) :
    ev.map (fun b => (b.1, sortByStart b.2)) = ev := by
  induction ev with
  | nil => rfl
  | cons p rest ih =>
    have h1 : (p.1, sortByStart p.2) = p := by
      rw [hs p (List.mem_cons_self _ _)]
    rw [List.map_cons, h1, ih (fun q hq => hs q (List.mem_cons_of_mem _ hq))]

/-- Regrouping a well-formed document's flattened events reproduces it exactly:
the key step behind merge idempotence. -/
theorem groupByDay_flattenEvents {ev : List (Int × List Event)} (hwf : eventsWF ev) :
    groupByDay (flattenEvents ev) = ev := by
  obtain ⟨hasc, _hpos, hne, hfld, hsorted, hnodup⟩ := hwf
  have hid : ∀ e ∈ bucketsEvents ev, e.id ≠ "" := by
    intro e he
    rcases mem_bucketsEvents.mp he with ⟨p, hp, hep⟩
    exact (hfld p hp e hep).2
  rw [flattenEvents_eq_pairs hid hnodup]
  unfold groupByDay
  rw [List.foldl_map]
  have hfold : (bucketsEvents ev).foldl (fun g e => insertGrouped g e) [] = [] ++ ev :=
    groupFold_structured ev [] (by simpa using hasc) hne (fun p hp e he => (hfld p hp e he).1)
  simp only at hfold
  rw [hfold]
  have hs : ∀ p ∈ ev, sortByStart p.2 = p.2 := fun p hp => sortByStart_eq_of_sorted (hsorted p hp)
  simp only [List.nil_append]
  exact map_sort_id hs

/-- Merging against a base equal to the incoming document returns the current
document unchanged, provided the current document is in the canonical
well-formed shape of the data model. -/
theorem mergeState_self_base {current : CalendarState} (hwf : eventsWF current.events)
    (b : CalendarState) : mergeState current b b = current := by
  have hnd := nodupKeys_flattenEvents b.events
  have hsets : mergeSets (flattenEvents b.events) (flattenEvents current.events)
      (flattenEvents b.events) = flattenEvents current.events :=
    mergeSets_id (fun p hp => alGet_of_mem_nodup hnd hp) _
  have hdel : mergeDeletes (flattenEvents b.events) (flattenEvents b.events)
      (flattenEvents current.events) = flattenEvents current.events :=
    mergeDeletes_id (fun p hp => by simp [alHas, alGet_isSome_of_mem hp]) _
  obtain ⟨n, sd, sh, eh, vm, evs⟩ := current
  unfold mergeState mergeEventMaps
  rw [hsets, hdel, groupByDay_flattenEvents hwf]
  simp

/-- C3: merge idempotence.  When `incoming` equals `base`, the merge engine
returns `current` unchanged in every scalar field and in its events, and a
save carrying such an incoming document through the merge path (stale base
revision, base supplied) leaves the stored entry — document and revision —
unchanged. -/
theorem merge_idempotence (current base : CalendarState) (cal : StoredCalendar) (r : Int)
    (hwf : eventsWF current.events) (hcal : cal.state = current) (hr : r ≠ cal.revision) :
    mergeState current base base = current ∧
      putCalendar cal base (some base) (some r) = cal := by
  refine ⟨mergeState_self_base hwf base, ?_⟩
  have hwfcal : eventsWF cal.state.events := by rw [hcal]; exact hwf
  have hnext : nextStateOf cal base (some base) (some r) = cal.state := by
    simp only [nextStateOf, if_neg hr]
    exact mergeState_self_base hwfcal (normalizeState base)
  unfold putCalendar
  rw [hnext, if_pos rfl]

/-- C3 witness: a concrete two-event well-formed store document and a stale
no-op save against it. -/
theorem merge_idempotence_witness :
    mergeState (mkDoc [(0, [mkEvent ("e1") 0 60 120]), (1, [mkEvent ("e2") 1 540 600])])
        (mkDoc []) (mkDoc []) =
      mkDoc [(0, [mkEvent ("e1") 0 60 120]), (1, [mkEvent ("e2") 1 540 600])] ∧
    putCalendar
      { state := mkDoc [(0, [mkEvent ("e1") 0 60 120]), (1, [mkEvent ("e2") 1 540 600])]
        revision := 0 }
      (mkDoc []) (some (mkDoc [])) (some 5) =
      { state := mkDoc [(0, [mkEvent ("e1") 0 60 120]), (1, [mkEvent ("e2") 1 540 600])]
        revision := 0 } :=
  merge_idempotence
    (mkDoc [(0, [mkEvent ("e1") 0 60 120]), (1, [mkEvent ("e2") 1 540 600])]) (mkDoc [])
    { state := mkDoc [(0, [mkEvent ("e1") 0 60 120]), (1, [mkEvent ("e2") 1 540 600])]
      revision := 0 }
    5 (by decide) rfl (by decide)

theorem parseTimeToMinutes_bounds {s : String} {t : Int}
    (h : parseTimeToMinutes s = some t) : 0 ≤ t ∧ t ≤ 1439 := by
  unfold parseTimeToMinutes at h
  split at h
  next h1 h2 c m1 m2 heq =>
    split at h
    next hcnd =>
      obtain rfl : 60 * (10 * digitVal h1 + digitVal h2) + (10 * digitVal m1 + digitVal m2) = t :=
        Option.some.inj h
      obtain ⟨_, hreg⟩ := hcnd
      unfold timeRegexOk isDigitCh at hreg
      unfold digitVal
      omega
    next => exact absurd h (by simp)
  next => exact absurd h (by simp)

/-- C10: bounds of the normalized candidate times.  Every candidate that
passes date/time validation has `startMinutes ∈ [0, 1410]`,
`endMinutes ≤ 1440` and a duration of at least 30 minutes; and whenever the
parsed end time exceeds the normalized start by fewer than 30 minutes, the end
is raised to exactly `startMinutes + 30`. -/
theorem normalizer_time_bounds (day : Int) (item : AiPlanEvent) (p : ParsedPlanEvent)
    (h : parsePlannedEvent day item = some p) :
    0 ≤ p.startMinutes ∧ p.startMinutes ≤ 1410 ∧ p.endMinutes ≤ 1440 ∧
      30 ≤ p.endMinutes - p.startMinutes ∧
      ∀ endRaw, parseTimeToMinutes item.endTime = some endRaw →
        p.startMinutes < endRaw → endRaw < p.startMinutes + 30 →
        p.endMinutes = p.startMinutes + 30 := by
  unfold parsePlannedEvent at h
  rcases hd : parseIsoDateOnly item.date with _ | date <;> rw [hd] at h
  · exact absurd h (by simp)
  rcases hs : parseTimeToMinutes item.startTime with _ | startRaw <;> rw [hs] at h
  · exact absurd h (by simp)
  rcases he : parseTimeToMinutes item.endTime with _ | endRaw₀ <;> rw [he] at h
  · exact absurd h (by simp)
  simp only at h
  obtain rfl := (Option.some.inj h).symm
  obtain ⟨hs0, hs1⟩ := parseTimeToMinutes_bounds hs
  obtain ⟨he0, he1⟩ := parseTimeToMinutes_bounds he
  simp only
  refine ⟨?_, ?_, ?_, ?_, ?_⟩
  · simp only [max_def, min_def]
    split_ifs <;> omega
  · simp only [max_def, min_def]
    split_ifs <;> omega
  · simp only [max_def, min_def]
    split_ifs <;> omega
  · simp only [max_def, min_def]
    split_ifs <;> omega
  · intro endRaw her hlt hclose
    obtain rfl : endRaw₀ = endRaw := Option.some.inj her
    simp only [max_def, min_def] at hlt hclose ⊢
    split_ifs at hlt hclose ⊢ <;> omega

theorem isoDateFields_year_range {cs : List Char} {y m d : Int}
    (h : isoDateFields cs = some (y, m, d)) : 0 ≤ y ∧ y ≤ 9999 := by
  unfold isoDateFields at h
  split at h
  next y1 y2 y3 y4 s1 m1 m2 s2 d1 d2 heq =>
    split at h
    next hcnd =>
      simp only [Option.some.injEq, Prod.mk.injEq] at h
      obtain ⟨rfl, rfl, rfl⟩ := h
      unfold isDigitCh at hcnd
      unfold digitVal
      omega
    next => exact absurd h (by simp)
  next => exact absurd h (by simp)

theorem parseIsoDateOnly_isSome_iff {s : String} :
    (parseIsoDateOnly s).isSome = true ↔
      (specRealIsoDate s && specYearGE100 s) = true := by
  unfold parseIsoDateOnly specRealIsoDate specYearGE100
  rcases hf : isoDateFields (trimChars s.toList) with _ | ⟨y, m, d⟩
  · simp
  · have hb := isoDateFields_year_range hf
    by_cases hv : validCivilYmd y m d
    · by_cases hy : 100 ≤ y
      · have hjs : jsConstructorYear y = y := by
          unfold jsConstructorYear
          rw [if_neg]
          omega
        simp [hjs, hv, hy]
      · have hjs : ¬ jsConstructorYear y = y := by
          unfold jsConstructorYear
          rw [if_pos (by omega)]
          omega
        simp [hjs, hv, hy]
    · simp [hv]

theorem timeRegexOk_iff (a b d e : Char) :
    timeRegexOk a b d e ↔
      (isDigitCh a ∧ isDigitCh b ∧ isDigitCh d ∧ isDigitCh e ∧
        10 * digitVal a + digitVal b ≤ 23 ∧ 10 * digitVal d + digitVal e ≤ 59) := by
  unfold timeRegexOk isDigitCh digitVal
  omega

theorem parseTimeToMinutes_isSome_iff {s : String} :
    (parseTimeToMinutes s).isSome = true ↔ spec24hTime s = true := by
  unfold parseTimeToMinutes spec24hTime timeFieldPairs
  rcases hl : trimChars s.toList with _ | ⟨a, _ | ⟨b, _ | ⟨c, _ | ⟨d, _ | ⟨e, _ | ⟨f, r⟩⟩⟩⟩⟩⟩ <;>
    try simp
  by_cases hc : c = ':'
  · by_cases hdig : isDigitCh a ∧ isDigitCh b ∧ isDigitCh d ∧ isDigitCh e
    · rw [if_pos ⟨hc, hdig.1, hdig.2.1, hdig.2.2.1, hdig.2.2.2⟩]
      rw [timeRegexOk_iff]
      simp [hc, hdig.1, hdig.2.1, hdig.2.2.1, hdig.2.2.2]
    · rw [if_neg (fun hcc => hdig ⟨hcc.2.1, hcc.2.2.1, hcc.2.2.2.1, hcc.2.2.2.2⟩)]
      have hnot : ¬ (c = ':' ∧ timeRegexOk a b d e) := by
        rintro ⟨-, hreg⟩
        have := (timeRegexOk_iff a b d e).mp hreg
        exact hdig ⟨this.1, this.2.1, this.2.2.1, this.2.2.2.1⟩
      simp [hnot]
  · rw [if_neg (fun hcc => hc hcc.1)]
    have hnot : ¬ (c = ':' ∧ timeRegexOk a b d e) := fun hcc => hc hcc.1
    simp [hnot]

theorem parsePlannedEvent_isSome_iff (day : Int) (item : AiPlanEvent) :
    (parsePlannedEvent day item).isSome = true ↔ amendedValidItem item = true := by
  have hdate := parseIsoDateOnly_isSome_iff (s := item.date)
  have hst := parseTimeToMinutes_isSome_iff (s := item.startTime)
  have het := parseTimeToMinutes_isSome_iff (s := item.endTime)
  unfold parsePlannedEvent amendedValidItem
  rcases hd : parseIsoDateOnly item.date with _ | date <;> rw [hd] at hdate <;>
    rcases hs : parseTimeToMinutes item.startTime with _ | sr <;> rw [hs] at hst <;>
    rcases he : parseTimeToMinutes item.endTime with _ | er <;> rw [he] at het <;>
    simp_all [Bool.and_eq_true]

theorem parseBatch_counts (day : Int) (items : List AiPlanEvent) :
    (parseBatch day items).2 = (items.filter (fun i => ! amendedValidItem i)).length ∧
      (parseBatch day items).1.length =
        (items.filter (fun i => amendedValidItem i)).length := by
  have main : ∀ (l : List AiPlanEvent) (acc : List ParsedPlanEvent × Nat),
      (l.foldl (fun acc item =>
          match parsePlannedEvent day item with
          | none => (acc.1, acc.2 + 1)
          | some p => (acc.1 ++ [p], acc.2)) acc).2 =
        acc.2 + (l.filter (fun i => ! amendedValidItem i)).length ∧
      (l.foldl (fun acc item =>
          match parsePlannedEvent day item with
          | none => (acc.1, acc.2 + 1)
          | some p => (acc.1 ++ [p], acc.2)) acc).1.length =
        acc.1.length + (l.filter (fun i => amendedValidItem i)).length := by
    intro l
    induction l with
    | nil => intro acc; simp
    | cons i rest ih =>
      intro acc
      by_cases hv : amendedValidItem i = true
      · rcases hp : parsePlannedEvent day i with _ | p
        · have := (parsePlannedEvent_isSome_iff day i).mpr hv
          rw [hp] at this
          simp at this
        · simp only [List.foldl_cons, hp, List.filter_cons, hv, Bool.not_true]
          have h1 := (ih ((acc.1 ++ [p], acc.2))).1
          have h2 := (ih ((acc.1 ++ [p], acc.2))).2
          simp only [h1, h2]
          simp <;> omega
      · rcases hp : parsePlannedEvent day i with _ | p
        · have hvb : amendedValidItem i = false := by
            rcases Bool.eq_false_or_eq_true (amendedValidItem i) with h | h
            · exact absurd h hv
            · exact h
          simp only [List.foldl_cons, hp, List.filter_cons, hvb, Bool.not_false]
          have h1 := (ih ((acc.1, acc.2 + 1))).1
          have h2 := (ih ((acc.1, acc.2 + 1))).2
          simp only [h1, h2]
          simp <;> omega
        · have := (parsePlannedEvent_isSome_iff day i).mp (by rw [hp]; rfl)
          exact absurd this hv
  have h := main items ([], 0)
  unfold parseBatch
  exact ⟨by rw [h.1]; simp, by rw [h.2]; simp⟩

/-- C9 (amended): an item of a batch is dropped and counted as invalid exactly
when its date is not a real 4-digit-form calendar date with year at least 100
(the parser's ECMAScript round trip also rejects years 0000–0099) or one of
its times is not a 24-hour `HH:MM` within `[00:00, 23:59]`; every other item
yields a typed candidate. -/
theorem normalizer_validity (day : Int) (item : AiPlanEvent) (items : List AiPlanEvent) :
    ((parsePlannedEvent day item).isSome = true ↔ amendedValidItem item = true) ∧
      (parseBatch day items).2 = (items.filter (fun i => ! amendedValidItem i)).length ∧
      (parseBatch day items).1.length =
        (items.filter (fun i => amendedValidItem i)).length :=
  ⟨parsePlannedEvent_isSome_iff day item, (parseBatch_counts day items).1,
    (parseBatch_counts day items).2⟩

/-- C9 counterexample: the date `0050-01-06` is a real calendar date in the
4-digit form and both times are valid, so the claim as stated requires a typed
candidate; yet the normalizer drops the item and counts it invalid, because
the ECMAScript `Date` constructor rewrites years 0–99 to 1900–1999 and the
round-trip check fails. -/
theorem normalizer_validity_counterexample :
    specValidItem year50Item = true ∧ parsePlannedEvent 0 year50Item = none ∧
      (parseBatch 0 [year50Item]).2 = 1 := by
  decide

theorem bucketNoOverlap_symm :
    Symmetric (fun x y : Event =>
      ¬ (x.startMinutes < y.endMinutes ∧ x.endMinutes > y.startMinutes)) :=
  fun _ _ h hc => h ⟨hc.2, hc.1⟩

theorem insertStep_skip (g : String → Option Place) (idGen : Nat → String) (offset : Int)
    (st : PlanLoopState) (c : ParsedPlanEvent)
    (h : ∃ ex ∈ (alGet st.events (c.dayDiff + offset)).getD [],
      hasTimeOverlap c.startMinutes c.endMinutes ex.startMinutes ex.endMinutes) :
    insertStep g idGen offset st c = { st with skippedOverlap := st.skippedOverlap + 1 } := by
  unfold insertStep
  rw [if_pos h]

theorem insertStep_noOverlap {g : String → Option Place} {idGen : Nat → String} {offset : Int}
    {st : PlanLoopState} {c : ParsedPlanEvent}
    (hinv : ∀ p ∈ st.events, bucketNoOverlap p.2) :
    ∀ p ∈ (insertStep g idGen offset st c).events, bucketNoOverlap p.2 := by
  intro p hp
  unfold insertStep at hp
  by_cases hov : ∃ ex ∈ (alGet st.events (c.dayDiff + offset)).getD [],
      hasTimeOverlap c.startMinutes c.endMinutes ex.startMinutes ex.endMinutes
  · rw [if_pos hov] at hp
    exact hinv p hp
  · rw [if_neg hov] at hp
    rcases mem_alSet hp with h | h
    · have hbucket : bucketNoOverlap ((alGet st.events (c.dayDiff + offset)).getD []) := by
        rcases hget : alGet st.events (c.dayDiff + offset) with _ | evs
        · simp [bucketNoOverlap]
        · exact hinv _ (mem_of_alGet hget)
      subst h
      show bucketNoOverlap (sortByStart _)
      unfold bucketNoOverlap
      rw [(sortByStart_perm _).pairwise_iff (fun hxy => bucketNoOverlap_symm hxy)]
      rw [List.pairwise_append]
      refine ⟨hbucket, by simp, ?_⟩
      intro x hx y hy
      simp only [List.mem_singleton] at hy
      subst hy
      intro hc
      exact hov ⟨x, hx, hc.2, hc.1⟩
    · exact hinv p h

theorem foldInsert_noOverlap (g : String → Option Place) (idGen : Nat → String) (offset : Int)
    (parsed : List ParsedPlanEvent) :
    ∀ (st : PlanLoopState), (∀ p ∈ st.events, bucketNoOverlap p.2) →
      ∀ p ∈ (parsed.foldl (insertStep g idGen offset) st).events, bucketNoOverlap p.2 := by
  induction parsed with
  | nil => intro st hst; exact hst
  | cons c rest ih =>
    intro st hst
    rw [List.foldl_cons]
    exact ih _ (insertStep_noOverlap hst)

theorem shiftEvents_noOverlap {ev : List (Int × List Event)} {offset : Int}
    (hinv : ∀ p ∈ ev, bucketNoOverlap p.2) :
    ∀ p ∈ shiftEvents ev offset, bucketNoOverlap p.2 := by
  intro p hp
  rcases List.mem_map.mp hp with ⟨b, hb, rfl⟩
  exact List.Pairwise.map _ (fun x y h => h) (hinv b hb)

/-- C5: the overlap law of the Plan Scheduler.  For a document whose day
buckets satisfy the data model's no-overlap invariant, every day bucket of the
scheduler's output still contains no two events with
`aStart < bEnd ∧ aEnd > bStart`; and a candidate that overlaps an event
already placed on its target day (pre-existing or accepted earlier in the
batch) is skipped, counted as exactly one more overlap rejection, and changes
nothing else. -/
theorem scheduler_overlap_law (g : String → Option Place) (idGen : Nat → String)
    (items : List AiPlanEvent) (snapshot : RollbackSnapshot)
    (hov : ∀ p ∈ snapshot.events, bucketNoOverlap p.2) :
    (∀ p ∈ (applyPlannedEvents g idGen items snapshot).events, bucketNoOverlap p.2) ∧
      ∀ (offset : Int) (st : PlanLoopState) (c : ParsedPlanEvent),
        (∃ ex ∈ (alGet st.events (c.dayDiff + offset)).getD [],
          hasTimeOverlap c.startMinutes c.endMinutes ex.startMinutes ex.endMinutes) →
        insertStep g idGen offset st c =
          { st with skippedOverlap := st.skippedOverlap + 1 } := by
  refine ⟨?_, fun offset st c h => insertStep_skip g idGen offset st c h⟩
  unfold applyPlannedEvents
  by_cases h1 : parsedOf snapshot.startDate items = []
  · rw [if_pos h1]
    exact hov
  · rw [if_neg h1]
    have hfold := foldInsert_noOverlap g idGen (planOffset (parsedOf snapshot.startDate items))
      (parsedOf snapshot.startDate items)
      ⟨shiftEvents snapshot.events (planOffset (parsedOf snapshot.startDate items)), 0, 0, 0, []⟩
      (shiftEvents_noOverlap hov)
    by_cases h2 : ((parsedOf snapshot.startDate items).foldl
        (insertStep g idGen (planOffset (parsedOf snapshot.startDate items)))
        ⟨shiftEvents snapshot.events (planOffset (parsedOf snapshot.startDate items)),
          0, 0, 0, []⟩).created = 0
    · rw [if_pos h2]
      exact hov
    · rw [if_neg h2]
      exact hfold

theorem alKeys_shiftEvents (ev : List (Int × List Event)) (offset : Int) :
    alKeys (shiftEvents ev offset) = (alKeys ev).map (· + offset) := by
  induction ev with
  | nil => rfl
  | cons b rest ih =>
    simp [shiftEvents, alKeys] at ih ⊢
    try exact ih

theorem shiftEvents_get {ev : List (Int × List Event)} {offset : Int}
    (hnd : NodupKeys ev) {k : Int} {evs : List Event} (hmem : (k, evs) ∈ ev) :
    alGet (shiftEvents ev offset) (k + offset) =
      some (evs.map (fun e => { e with dayIndex := k + offset })) := by
  have hnd' : NodupKeys (shiftEvents ev offset) := by
    unfold NodupKeys
    rw [alKeys_shiftEvents]
    exact hnd.map (fun a b h => by omega)
  refine alGet_of_mem_nodup hnd' ?_
  exact List.mem_map.mpr ⟨(k, evs), hmem, rfl⟩

theorem insertStep_mem_mono {g : String → Option Place} {idGen : Nat → String} {offset : Int}
    {st : PlanLoopState} {c : ParsedPlanEvent} {x : Event} {k : Int}
    (hx : x ∈ (alGet st.events k).getD []) :
    x ∈ (alGet (insertStep g idGen offset st c).events k).getD [] := by
  unfold insertStep
  by_cases hov : ∃ ex ∈ (alGet st.events (c.dayDiff + offset)).getD [],
      hasTimeOverlap c.startMinutes c.endMinutes ex.startMinutes ex.endMinutes
  · rw [if_pos hov]
    exact hx
  · rw [if_neg hov]
    by_cases hk : k = c.dayDiff + offset
    · subst hk
      rw [alGet_alSet_self]
      simp only [Option.getD_some]
      rw [mem_sortByStart]
      exact List.mem_append_left _ hx
    · rw [alGet_alSet_ne _ _ hk]
      exact hx

theorem foldInsert_mem_mono (g : String → Option Place) (idGen : Nat → String) (offset : Int)
    (parsed : List ParsedPlanEvent) :
    ∀ (st : PlanLoopState) (x : Event) (k : Int), x ∈ (alGet st.events k).getD [] →
      x ∈ (alGet ((parsed.foldl (insertStep g idGen offset) st)).events k).getD [] := by
  induction parsed with
  | nil => intro st x k hx; exact hx
  | cons c rest ih =>
    intro st x k hx
    rw [List.foldl_cons]
    exact ih _ x k (insertStep_mem_mono hx)

theorem insertStep_insert (g : String → Option Place) (idGen : Nat → String) (offset : Int)
    (st : PlanLoopState) (c : ParsedPlanEvent)
    (h : ¬ ∃ ex ∈ (alGet st.events (c.dayDiff + offset)).getD [],
      hasTimeOverlap c.startMinutes c.endMinutes ex.startMinutes ex.endMinutes) :
    ∃ blk ∈ (alGet (insertStep g idGen offset st c).events (c.dayDiff + offset)).getD [],
      blk.dayIndex = c.dayDiff + offset ∧ blk.startMinutes = c.startMinutes ∧
        blk.endMinutes = c.endMinutes ∧ blk.title = c.title ∧
        (insertStep g idGen offset st c).created = st.created + 1 := by
  unfold insertStep
  rw [if_neg h]
  simp only [alGet_alSet_self, Option.getD_some]
  refine ⟨plannedBlock g idGen offset st c, ?_, ?_, ?_, ?_, ?_, ?_⟩
  · rw [mem_sortByStart]
    exact List.mem_append_right _ (List.mem_singleton.mpr rfl)
  all_goals trivial

/-- C6: day-shift correctness of the Plan Scheduler.  For a committed batch
containing a candidate dated before the window start, with
`offset = max(0, −minimum day offset)`: the committed window start moves back
by `offset` days, every pre-existing event survives with its day index
increased by `offset`, and an accepted candidate is inserted at day index
`dayDiff + offset` (its day offset plus the shift) with its own times. -/
theorem scheduler_day_shift (g : String → Option Place) (idGen : Nat → String)
    (items : List AiPlanEvent) (snapshot : RollbackSnapshot)
    (hnd : NodupKeys snapshot.events)
    (hneg : ∃ p ∈ parsedOf snapshot.startDate items, p.dayDiff < 0)
    (hc : (applyPlannedEvents g idGen items snapshot).committed = true) :
    (applyPlannedEvents g idGen items snapshot).startDate =
        snapshot.startDate - offsetOf snapshot.startDate items ∧
      (∀ p ∈ snapshot.events, ∀ e ∈ p.2,
        ({ e with dayIndex := p.1 + offsetOf snapshot.startDate items }) ∈
          (alGet (applyPlannedEvents g idGen items snapshot).events
            (p.1 + offsetOf snapshot.startDate items)).getD []) ∧
      ∀ (st : PlanLoopState) (c : ParsedPlanEvent),
        (¬ ∃ ex ∈ (alGet st.events (c.dayDiff + offsetOf snapshot.startDate items)).getD [],
          hasTimeOverlap c.startMinutes c.endMinutes ex.startMinutes ex.endMinutes) →
        ∃ blk ∈ (alGet (insertStep g idGen (offsetOf snapshot.startDate items) st c).events
            (c.dayDiff + offsetOf snapshot.startDate items)).getD [],
          blk.dayIndex = c.dayDiff + offsetOf snapshot.startDate items ∧
            blk.startMinutes = c.startMinutes ∧ blk.endMinutes = c.endMinutes ∧
            blk.title = c.title ∧
            (insertStep g idGen (offsetOf snapshot.startDate items) st c).created =
              st.created + 1 := by
  have h1 : ¬ parsedOf snapshot.startDate items = [] := by
    rcases hneg with ⟨p, hp, _⟩
    intro hnil
    rw [hnil] at hp
    simp at hp
  have h2 : ¬ ((parsedOf snapshot.startDate items).foldl
      (insertStep g idGen (planOffset (parsedOf snapshot.startDate items)))
      ⟨shiftEvents snapshot.events (planOffset (parsedOf snapshot.startDate items)),
        0, 0, 0, []⟩).created = 0 := by
    intro h0
    unfold applyPlannedEvents at hc
    rw [if_neg h1, if_pos h0] at hc
    simp at hc
  have happ : applyPlannedEvents g idGen items snapshot =
      { result := ⟨((parsedOf snapshot.startDate items).foldl
            (insertStep g idGen (planOffset (parsedOf snapshot.startDate items)))
            ⟨shiftEvents snapshot.events (planOffset (parsedOf snapshot.startDate items)),
              0, 0, 0, []⟩).created,
          ((parsedOf snapshot.startDate items).foldl
            (insertStep g idGen (planOffset (parsedOf snapshot.startDate items)))
            ⟨shiftEvents snapshot.events (planOffset (parsedOf snapshot.startDate items)),
              0, 0, 0, []⟩).unresolved,
          (parseBatch snapshot.startDate items).2,
          ((parsedOf snapshot.startDate items).foldl
            (insertStep g idGen (planOffset (parsedOf snapshot.startDate items)))
            ⟨shiftEvents snapshot.events (planOffset (parsedOf snapshot.startDate items)),
              0, 0, 0, []⟩).skippedOverlap⟩
        committed := true
        events := ((parsedOf snapshot.startDate items).foldl
          (insertStep g idGen (planOffset (parsedOf snapshot.startDate items)))
          ⟨shiftEvents snapshot.events (planOffset (parsedOf snapshot.startDate items)),
            0, 0, 0, []⟩).events
        numDays := max (snapshot.numDays + planOffset (parsedOf snapshot.startDate items))
          (maxKeyIndex ((parsedOf snapshot.startDate items).foldl
            (insertStep g idGen (planOffset (parsedOf snapshot.startDate items)))
            ⟨shiftEvents snapshot.events (planOffset (parsedOf snapshot.startDate items)),
              0, 0, 0, []⟩).events + 1)
        startDate := snapshot.startDate - planOffset (parsedOf snapshot.startDate items)
        dayViewIndex := snapshot.dayViewIndex +
          planOffset (parsedOf snapshot.startDate items) } := by
    unfold applyPlannedEvents
    rw [if_neg h1, if_neg h2]
  refine ⟨by rw [happ]; rfl, ?_, ?_⟩
  · intro p hp e he
    simp only [offsetOf]
    rw [happ]
    refine foldInsert_mem_mono g idGen _ _ _ _ _ ?_
    show _ ∈ (alGet (shiftEvents snapshot.events
      (planOffset (parsedOf snapshot.startDate items))) _).getD []
    rw [shiftEvents_get hnd hp]
    simp only [Option.getD_some]
    exact List.mem_map.mpr ⟨e, he, rfl⟩
  · intro st c h
    exact insertStep_insert g idGen _ st c h

/-- C5 witness: the spec's end-to-end scenario — candidate A is accepted,
overlapping candidate B is rejected, and every output bucket is overlap
free. -/
theorem scheduler_overlap_law_witness :
    (∀ p ∈ (applyPlannedEvents noGeocoder plainIds c5Items c5Snapshot).events,
      bucketNoOverlap p.2) ∧
    (applyPlannedEvents noGeocoder plainIds c5Items c5Snapshot).result.created = 1 ∧
    (applyPlannedEvents noGeocoder plainIds c5Items c5Snapshot).result.skippedOverlap = 1 :=
  ⟨(scheduler_overlap_law noGeocoder plainIds c5Items c5Snapshot (by decide)).1,
    by decide, by decide⟩

/-- C6 witness: the spec's day-shift scenario — offset 3, window start moved
three days back, the old event now at day index 5, and the new event on day
index 0. -/
theorem scheduler_day_shift_witness :
    offsetOf c6Snapshot.startDate c6Items = 3 ∧
    (applyPlannedEvents noGeocoder plainIds c6Items c6Snapshot).startDate =
      c6Snapshot.startDate - offsetOf c6Snapshot.startDate c6Items ∧
    ({ c6Old with dayIndex := (2 : Int) + offsetOf c6Snapshot.startDate c6Items }) ∈
      (alGet (applyPlannedEvents noGeocoder plainIds c6Items c6Snapshot).events
        ((2 : Int) + offsetOf c6Snapshot.startDate c6Items)).getD [] ∧
    ∃ blk ∈ (alGet (applyPlannedEvents noGeocoder plainIds c6Items c6Snapshot).events 0).getD [],
      blk.dayIndex = 0 ∧ blk.startMinutes = 540 ∧ blk.endMinutes = 600 :=
  ⟨by decide,
    (scheduler_day_shift noGeocoder plainIds c6Items c6Snapshot (by decide) (by decide)
      (by decide)).1,
    (scheduler_day_shift noGeocoder plainIds c6Items c6Snapshot (by decide) (by decide)
      (by decide)).2.1 (2, [c6Old]) (by decide) c6Old (by decide),
    by decide⟩

/-- C10 witness: a 10-minute raw range is widened to exactly 30 minutes. -/
theorem normalizer_time_bounds_witness :
    parsePlannedEvent 0 c10Item = some c10Parsed ∧
      c10Parsed.endMinutes = c10Parsed.startMinutes + 30 :=
  ⟨by decide,
    (normalizer_time_bounds 0 c10Item c10Parsed (by decide)).2.2.2.2 550 (by decide)
      (by decide) (by decide)⟩

theorem cloneEvents_eq (events : List (Int × List Event)) : cloneEvents events = events := by
  unfold cloneEvents
  induction events with
  | nil => rfl
  | cons b rest ih => simp [ih]

/-- C7: rollback exactness.  Capturing a snapshot of the current document for
the active calendar and then consuming it restores exactly the captured
document — events, day span, window start and focused day index — and clears
the slot; a second consume without an intervening capture finds no snapshot
and changes nothing. -/
theorem rollback_exactness (st : AppState) (calId : String)
    (hid : st.currentCalendarId = some calId) :
    (handleAiRollback (captureRollback st calId (snapshotOfState st))).events = st.events ∧
    (handleAiRollback (captureRollback st calId (snapshotOfState st))).numDays = st.numDays ∧
    (handleAiRollback (captureRollback st calId (snapshotOfState st))).startDate =
      st.startDate ∧
    (handleAiRollback (captureRollback st calId (snapshotOfState st))).dayViewIndex =
      st.dayViewIndex ∧
    alGet (handleAiRollback (captureRollback st calId (snapshotOfState st))).aiRollback calId =
      some none ∧
    handleAiRollback (handleAiRollback (captureRollback st calId (snapshotOfState st))) =
      handleAiRollback (captureRollback st calId (snapshotOfState st)) := by
  obtain ⟨cid, ev, nd, sd, dvi, rb, msg⟩ := st
  simp only [AppState.mk.injEq] at hid ⊢
  obtain rfl : cid = some calId := hid
  have hget1 : alGet (alSet rb calId (some (snapshotOfState
      ⟨some calId, ev, nd, sd, dvi, rb, msg⟩))) calId =
      some (some (snapshotOfState ⟨some calId, ev, nd, sd, dvi, rb, msg⟩)) :=
    alGet_alSet_self _ _ _
  have hred1 : handleAiRollback (captureRollback ⟨some calId, ev, nd, sd, dvi, rb, msg⟩ calId
      (snapshotOfState ⟨some calId, ev, nd, sd, dvi, rb, msg⟩)) =
      appendAssistant
        ⟨some calId, cloneEvents (cloneEvents ev), nd, sd, dvi,
          alSet (alSet rb calId (some (snapshotOfState
            ⟨some calId, ev, nd, sd, dvi, rb, msg⟩))) calId none, msg⟩
        calId ("Rolled back the last AI-generated event batch.") := by
    show (match (alGet (alSet rb calId (some (snapshotOfState
        ⟨some calId, ev, nd, sd, dvi, rb, msg⟩))) calId).getD none with
      | none => captureRollback ⟨some calId, ev, nd, sd, dvi, rb, msg⟩ calId
          (snapshotOfState ⟨some calId, ev, nd, sd, dvi, rb, msg⟩)
      | some snap =>
        appendAssistant
          ⟨some calId, cloneEvents snap.events, snap.numDays, snap.startDate, snap.dayViewIndex,
            alSet (alSet rb calId (some (snapshotOfState
              ⟨some calId, ev, nd, sd, dvi, rb, msg⟩))) calId none, msg⟩
          calId ("Rolled back the last AI-generated event batch.")) = _
    rw [hget1]
    rfl
  have hget2 : alGet (alSet (alSet rb calId (some (snapshotOfState
      ⟨some calId, ev, nd, sd, dvi, rb, msg⟩))) calId none) calId = some none :=
    alGet_alSet_self _ _ _
  rw [hred1]
  have hmsg : ∀ st₀ : AppState, (appendAssistant st₀ calId
      ("Rolled back the last AI-generated event batch.")).events = st₀.events ∧
      (appendAssistant st₀ calId
        ("Rolled back the last AI-generated event batch.")).aiRollback = st₀.aiRollback :=
    fun st₀ => ⟨rfl, rfl⟩
  refine ⟨?_, rfl, rfl, rfl, ?_, ?_⟩
  · show cloneEvents (cloneEvents ev) = ev
    rw [cloneEvents_eq, cloneEvents_eq]
  · show alGet (alSet (alSet rb calId (some (snapshotOfState
      ⟨some calId, ev, nd, sd, dvi, rb, msg⟩))) calId none) calId = some none
    exact hget2
  · show (match (alGet (alSet (alSet rb calId (some (snapshotOfState
        ⟨some calId, ev, nd, sd, dvi, rb, msg⟩))) calId none) calId).getD none with
      | none => appendAssistant
          ⟨some calId, cloneEvents (cloneEvents ev), nd, sd, dvi,
            alSet (alSet rb calId (some (snapshotOfState
              ⟨some calId, ev, nd, sd, dvi, rb, msg⟩))) calId none, msg⟩
          calId ("Rolled back the last AI-generated event batch.")
      | some snap =>
        appendAssistant
          ⟨some calId, cloneEvents snap.events, snap.numDays, snap.startDate, snap.dayViewIndex,
            alSet (alSet (alSet rb calId (some (snapshotOfState
              ⟨some calId, ev, nd, sd, dvi, rb, msg⟩))) calId none) calId none,
            (appendAssistant
              ⟨some calId, cloneEvents (cloneEvents ev), nd, sd, dvi,
                alSet (alSet rb calId (some (snapshotOfState
                  ⟨some calId, ev, nd, sd, dvi, rb, msg⟩))) calId none, msg⟩
              calId ("Rolled back the last AI-generated event batch.")).aiMessages⟩
          calId ("Rolled back the last AI-generated event batch.")) = _
    rw [hget2]
    rfl

/-- C8: stale AI results are discarded.  If, when the planner round trip
completes, the active calendar differs from the one captured at request start,
the completion path leaves the document fields and every rollback slot
untouched (only a chat notice is appended). -/
theorem stale_ai_result_discarded (g : String → Option Place) (idGen : Nat → String)
    (st : AppState) (requestCalendarId : String) (snapshot : RollbackSnapshot)
    (responseOk : Bool) (payload : AiPlanResponse)
    (h : st.currentCalendarId ≠ some requestCalendarId) :
    (completeAiPlan g idGen st requestCalendarId snapshot responseOk payload).events =
        st.events ∧
      (completeAiPlan g idGen st requestCalendarId snapshot responseOk payload).numDays =
        st.numDays ∧
      (completeAiPlan g idGen st requestCalendarId snapshot responseOk payload).startDate =
        st.startDate ∧
      (completeAiPlan g idGen st requestCalendarId snapshot responseOk payload).dayViewIndex =
        st.dayViewIndex ∧
      (completeAiPlan g idGen st requestCalendarId snapshot responseOk payload).aiRollback =
        st.aiRollback := by
  unfold completeAiPlan
  rcases responseOk with _ | _
  · exact ⟨rfl, rfl, rfl, rfl, rfl⟩
  · simp only [Bool.true_eq_false, if_false, if_pos h]
    exact ⟨rfl, rfl, rfl, rfl, rfl⟩

/-- C7 witness: capture-then-consume on a concrete state restores it and a
second consume is a no-op. -/
theorem rollback_exactness_witness :
    (handleAiRollback (captureRollback demoState ("cal-1") (snapshotOfState demoState))).events =
        demoState.events ∧
      (handleAiRollback (captureRollback demoState ("cal-1")
        (snapshotOfState demoState))).numDays = demoState.numDays ∧
      (handleAiRollback (captureRollback demoState ("cal-1")
        (snapshotOfState demoState))).startDate = demoState.startDate ∧
      (handleAiRollback (captureRollback demoState ("cal-1")
        (snapshotOfState demoState))).dayViewIndex = demoState.dayViewIndex ∧
      alGet (handleAiRollback (captureRollback demoState ("cal-1")
        (snapshotOfState demoState))).aiRollback ("cal-1") = some none ∧
      handleAiRollback (handleAiRollback (captureRollback demoState ("cal-1")
        (snapshotOfState demoState))) =
        handleAiRollback (captureRollback demoState ("cal-1") (snapshotOfState demoState)) :=
  rollback_exactness demoState ("cal-1") rfl

/-- C8 witness: a completed round trip whose request calendar differs from the
active one leaves the document and rollback slots of a concrete state
untouched. -/
theorem stale_ai_result_discarded_witness :
    (completeAiPlan noGeocoder plainIds demoState ("cal-2") (snapshotOfState demoState) true
        { status := "ready", assistantMessage := "ok", events := c5Items }).events =
        demoState.events ∧
      (completeAiPlan noGeocoder plainIds demoState ("cal-2") (snapshotOfState demoState) true
        { status := "ready", assistantMessage := "ok", events := c5Items }).numDays =
        demoState.numDays ∧
      (completeAiPlan noGeocoder plainIds demoState ("cal-2") (snapshotOfState demoState) true
        { status := "ready", assistantMessage := "ok", events := c5Items }).startDate =
        demoState.startDate ∧
      (completeAiPlan noGeocoder plainIds demoState ("cal-2") (snapshotOfState demoState) true
        { status := "ready", assistantMessage := "ok", events := c5Items }).dayViewIndex =
        demoState.dayViewIndex ∧
      (completeAiPlan noGeocoder plainIds demoState ("cal-2") (snapshotOfState demoState) true
        { status := "ready", assistantMessage := "ok", events := c5Items }).aiRollback =
        demoState.aiRollback :=
  stale_ai_result_discarded noGeocoder plainIds demoState ("cal-2") (snapshotOfState demoState)
    true { status := "ready", assistantMessage := "ok", events := c5Items } (by decide)

end OpenMapCalendar

